import Mathlib

/-!
Verification of the fuzzy-matching / full-text-search core of the
dex-mcp-server-rust repository, as a shallow embedding in Lean 4.

Rust strings are embedded as `List Char`;  operations that Rust performs on
UTF-8 byte offsets (`str::len`, `str::find`, slicing, `String::truncate`) are
embedded through explicit byte lengths (`utf8Size`/`byteLen`), and the
fallible byte-offset operations return `Option` with `none` standing for the
panic branch.  `str::to_lowercase` is embedded as the per-character ASCII case
map (`toLowerChar`); this is exact on every string whose characters are ASCII
or already caseless/lowercase, and all concrete inputs used below are of that
form.  Floating-point arithmetic on small integer ratios
(`85.0 * ratio + 10.0`, `distance / max_len <= 0.4`, ...) is embedded as exact
rational arithmetic over `Nat`, with `as u8` casts embedded as floor division.
-/

namespace Dex

/-- The Unicode `White_Space` code points, as recognised by Rust's
`char::is_whitespace`. -/
def isWs (c : Char) : Bool :=
  decide ((0x09 ≤ c.toNat ∧ c.toNat ≤ 0x0D) ∨ c.toNat = 0x20 ∨ c.toNat = 0x85 ∨
    c.toNat = 0xA0 ∨ c.toNat = 0x1680 ∨ (0x2000 ≤ c.toNat ∧ c.toNat ≤ 0x200A) ∨
    c.toNat = 0x2028 ∨ c.toNat = 0x2029 ∨ c.toNat = 0x202F ∨ c.toNat = 0x205F ∨
    c.toNat = 0x3000)

/-- Per-character case map embedding `str::to_lowercase` (ASCII range; exact
for strings with no non-ASCII uppercase letter). -/
def toLowerChar (c : Char) : Char :=
  if 'A' ≤ c ∧ c ≤ 'Z' then Char.ofNat (c.toNat + 32) else c

/-- Embedding of `str::to_lowercase`. -/
def rustLower (s : List Char) : List Char := s.map toLowerChar

/-- Embedding of `str::trim`: strip leading and trailing whitespace. -/
def rustTrim (s : List Char) : List Char :=
  ((s.dropWhile isWs).reverse.dropWhile isWs).reverse

/-- Worker for `splitWs`: `acc` is the reversed current word. -/
def splitWsAux : List Char → List Char → List (List Char)
  | [], acc => if acc = [] then [] else [acc.reverse]
  | c :: rest, acc =>
    if isWs c then
      if acc = [] then splitWsAux rest [] else acc.reverse :: splitWsAux rest []
    else splitWsAux rest (c :: acc)

/-- Embedding of `str::split_whitespace`: maximal runs of non-whitespace. -/
def splitWs (s : List Char) : List (List Char) := splitWsAux s []

/-- Embedding of `Vec<&str>::join(" ")`. -/
def joinWords : List (List Char) → List Char
  | [] => []
  | [w] => w
  | w :: w' :: ws => w ++ ' ' :: joinWords (w' :: ws)

/-- Number of bytes of the UTF-8 encoding of a character. -/
def utf8Size (c : Char) : Nat :=
  if c.toNat < 0x80 then 1 else if c.toNat < 0x800 then 2
  else if c.toNat < 0x10000 then 3 else 4

/-- Embedding of `str::len`: the UTF-8 byte length. -/
def byteLen (s : List Char) : Nat := (s.map utf8Size).sum

/-- `isPrefixList p s` holds when `p` is a prefix of `s`. -/
def isPrefixList : List Char → List Char → Bool
  | [], _ => true
  | _ :: _, [] => false
  | a :: p, b :: s => a == b && isPrefixList p s

/-- Embedding of `str::contains(&str)`: `containsSub needle hay` holds when
`needle` occurs contiguously in `hay` (on valid UTF-8 the byte-level substring
test coincides with this character-level test). -/
def containsSub (needle : List Char) (hay : List Char) : Bool :=
  if isPrefixList needle hay then true
  else
    match hay with
    | [] => false
    | _ :: rest => containsSub needle rest

/-- Embedding of `str::find(&str)`: byte offset of the first occurrence. -/
def byteFind (hay needle : List Char) : Option Nat :=
  if isPrefixList needle hay then some 0
  else
    match hay with
    | [] => none
    | c :: rest => (byteFind rest needle).map (fun n => utf8Size c + n)

/-- Take the prefix of exactly `n` bytes; `none` when `n` is not a character
boundary or exceeds the string (the slicing panic branch). -/
def byteTake : List Char → Nat → Option (List Char)
  | _, 0 => some []
  | [], _ + 1 => none
  | c :: rest, n + 1 =>
    if utf8Size c ≤ n + 1 then (byteTake rest (n + 1 - utf8Size c)).map (fun t => c :: t)
    else none

/-- Drop the first `n` bytes; `none` when `n` is not a character boundary or
exceeds the string. -/
def byteDrop : List Char → Nat → Option (List Char)
  | s, 0 => some s
  | [], _ + 1 => none
  | c :: rest, n + 1 =>
    if utf8Size c ≤ n + 1 then byteDrop rest (n + 1 - utf8Size c)
    else none

/-- Embedding of the byte-range slice `s[a..b]`; `none` is the panic branch
(`a > b`, out of bounds, or a boundary that falls inside a character). -/
def byteSlice (s : List Char) (a b : Nat) : Option (List Char) :=
  if b < a then none
  else (byteDrop s a).bind (fun t => byteTake t (b - a))

/-- Embedding of `String::truncate(n)`: no-op when `n ≥ len`, otherwise keep
the first `n` bytes; `none` is the panic branch (non-boundary `n`). -/
def byteTruncate (s : List Char) (n : Nat) : Option (List Char) :=
  if byteLen s ≤ n then some s else byteTake s n

/-- Byte-wise lexicographic order on strings (Rust `str::cmp`; on UTF-8 the
byte order coincides with this code-point order), as `a ≤ b`. -/
def lexLe : List Char → List Char → Bool
  | [], _ => true
  | _ :: _, [] => false
  | a :: s, b :: t => if a.toNat = b.toNat then lexLe s t else decide (a.toNat < b.toNat)

/-- One inner step of the Levenshtein matrix: given the character `a` of the
first string, the remaining characters of the second string, the previous row
from the diagonal position onwards, and the entry just computed to the left,
produce the rest of the current row
(`matrix[i+1][j+1] = min(matrix[i][j+1] + 1, matrix[i+1][j] + 1, matrix[i][j] + cost)`). -/
def levRowAux (a : Char) : List Char → List Nat → Nat → List Nat
  | [], _, _ => []
  | b :: t, prev, left =>
    match prev with
    | [] => []
    | diag :: prest =>
      let up := prest.headD 0
      let cost : Nat := if a = b then 0 else 1
      let here := min (up + 1) (min (left + 1) (diag + cost))
      here :: levRowAux a t prest here

/-- Embedding of `levenshtein_distance` (identical in `fuzzy_matcher.rs` and
`full_text_index.rs`): the dynamic-programming matrix over code points, row
by row; the first row is `0..=len2` and the answer is the last entry of the
last row. -/
def levenshtein_distance (s t : List Char) : Nat :=
  (s.foldl
    (fun prev a => (prev.headD 0 + 1) :: levRowAux a t prev (prev.headD 0 + 1))
    (List.range (t.length + 1))).getLastD 0

/-! ## Data model (`models/contact.rs`, `models/note.rs`, `models/reminder.rs`)

Only the fields consulted by the matching and search code are embedded; the
remaining fields of the Rust structs never influence the claims below. -/

/-- A social profile (`models/contact.rs`, `SocialProfile`); only `url` is
consulted by the matcher. -/
structure SocialProfile where
  url : List Char
deriving DecidableEq

/-- A contact (`models/contact.rs`, `Contact`), restricted to the fields the
matcher and the index read. -/
structure Contact where
  id : List Char
  name : List Char
  email : Option (List Char)
  emails : List (List Char)
  phone : Option (List Char)
  phones : List (List Char)
  company : Option (List Char)
  title : Option (List Char)
  social_profiles : List SocialProfile
deriving DecidableEq

/-- A note (`models/note.rs`); the index reads `id` and `content`. -/
structure Note where
  id : List Char
  content : List Char
deriving DecidableEq

/-- A reminder (`models/reminder.rs`); the index reads `id` and `text`. -/
structure Reminder where
  id : List Char
  text : List Char
deriving DecidableEq

/-! ## Normalization (`matching/fuzzy_matcher.rs`) -/

/-- `ContactMatcher::normalize_email`: trim and lowercase. -/
def normalize_email (email : List Char) : List Char := rustLower (rustTrim email)

def isAsciiDigit (c : Char) : Bool := '0' ≤ c && c ≤ '9'

/-- `ContactMatcher::normalize_phone`: digits only, keep the last 10. -/
def normalize_phone (phone : List Char) : List Char :=
  let digits := phone.filter isAsciiDigit
  if 10 < digits.length then digits.drop (digits.length - 10) else digits

theorem isPrefixList_length {p s : List Char} (h : isPrefixList p s = true) :
    p.length ≤ s.length := by
  induction p generalizing s with
  | nil => simp
  | cons a p ih =>
    cases s with
    | nil => simp [isPrefixList] at h
    | cons b s =>
      simp only [isPrefixList, Bool.and_eq_true] at h
      simpa using ih h.2

/-- Worker for `stripPrefixAll` with explicit fuel; each stripping step
removes at least one character, so `s.length` steps always reach the fixed
point. -/
def stripPrefixAllFuel (pat : List Char) : Nat → List Char → List Char
  | 0, s => s
  | fuel + 1, s =>
    if pat ≠ [] ∧ isPrefixList pat s = true then
      stripPrefixAllFuel pat fuel (s.drop pat.length)
    else s

/-- Embedding of `str::trim_start_matches(pat)`: remove every successive
occurrence of the prefix `pat`. -/
def stripPrefixAll (pat : List Char) (s : List Char) : List Char :=
  stripPrefixAllFuel pat s.length s

/-- Embedding of `str::trim_end_matches('/')`: remove every trailing slash. -/
def stripSuffixAllSlash (s : List Char) : List Char :=
  (s.reverse.dropWhile (fun c => c == '/')).reverse

/-- `ContactMatcher::normalize_url`: trim, lowercase, strip `https://`,
`http://`, `www.` prefixes and trailing slashes. -/
def normalize_url (url : List Char) : List Char :=
  stripSuffixAllSlash (stripPrefixAll ("www.".toList)
    (stripPrefixAll ("http://".toList)
      (stripPrefixAll ("https://".toList) (rustLower (rustTrim url)))))

/-- `ContactMatcher::normalize_name`: trim, lowercase, collapse whitespace. -/
def normalize_name (name : List Char) : List Char :=
  joinWords (splitWs (rustLower (rustTrim name)))

/-! ## Fuzzy scoring (`matching/fuzzy_matcher.rs`) -/

/-- `ContactMatcher::calculate_fuzzy_score`.  The float expressions
`(85.0 * ratio + 10.0) as u8` and `(similarity * 85.0) as u8` are embedded as
exact floor divisions, and `distance / max_len > 0.5` as `max_len < 2 * distance`;
`str::len` is the byte length. -/
def calculate_fuzzy_score (query target : List Char) : Nat :=
  if query = [] ∨ target = [] then 0
  else if query = target then 95
  else if containsSub query target then 85 * byteLen query / byteLen target + 10
  else if containsSub target query then 85
  else
    let distance := levenshtein_distance query target
    let max_len := max (byteLen query) (byteLen target)
    if max_len < 2 * distance then 0
    else 85 * (max_len - distance) / max_len

/-- `ContactMatcher::match_email`: exact match after normalization, against
the primary and the additional emails. -/
def match_email (query_email : List Char) (contact : Contact) : Option Nat :=
  let nq := normalize_email query_email
  if contact.email.any (fun e => normalize_email e == nq) ||
      contact.emails.any (fun e => normalize_email e == nq) then some 100
  else none

/-- `ContactMatcher::match_phone`. -/
def match_phone (query_phone : List Char) (contact : Contact) : Option Nat :=
  let nq := normalize_phone query_phone
  if contact.phone.any (fun p => normalize_phone p == nq) ||
      contact.phones.any (fun p => normalize_phone p == nq) then some 100
  else none

/-- `ContactMatcher::match_social_url`. -/
def match_social_url (query_url : List Char) (contact : Contact) : Option Nat :=
  let nq := normalize_url query_url
  if contact.social_profiles.any (fun p => normalize_url p.url == nq) then some 100
  else none

/-- `ContactMatcher::fuzzy_match_name`. -/
def fuzzy_match_name (query contact_name : List Char) : Option Nat :=
  let score := calculate_fuzzy_score (normalize_name query) (normalize_name contact_name)
  if 0 < score then some score else none

/-- `ContactMatcher::fuzzy_match_company` (threshold 50). -/
def fuzzy_match_company (query company : List Char) : Option Nat :=
  let score := calculate_fuzzy_score (normalize_name query) (normalize_name company)
  if 50 < score then some score else none

/-- `MatchType` (`matching/fuzzy_matcher.rs`). -/
inductive MatchType where
  | exactEmail
  | exactPhone
  | exactSocial
  | fuzzyName
deriving DecidableEq

/-- `MatchResult` (`matching/fuzzy_matcher.rs`). -/
structure MatchResult where
  contact : Contact
  confidence : Nat
  match_type : MatchType
deriving DecidableEq

/-- `ContactQuery` (`matching/fuzzy_matcher.rs`). -/
structure ContactQuery where
  name : Option (List Char)
  email : Option (List Char)
  phone : Option (List Char)
  company : Option (List Char)
  social_url : Option (List Char)
deriving DecidableEq

/-- The per-contact body of the loop in `ContactMatcher::find_matches`:
exact email, exact phone, exact social, then fuzzy name (each `continue`
making the first hit win); only the fuzzy branch consults `min_confidence`. -/
def match_one (query : ContactQuery) (min_confidence : Nat) (contact : Contact) :
    Option MatchResult :=
  match query.email.bind fun e => match_email e contact with
  | some conf => some ⟨contact, conf, MatchType.exactEmail⟩
  | none =>
  match query.phone.bind fun p => match_phone p contact with
  | some conf => some ⟨contact, conf, MatchType.exactPhone⟩
  | none =>
  match query.social_url.bind fun u => match_social_url u contact with
  | some conf => some ⟨contact, conf, MatchType.exactSocial⟩
  | none =>
  match query.name.bind fun n => fuzzy_match_name n contact.name with
  | none => none
  | some conf0 =>
    let conf :=
      match query.company, contact.company with
      | some qc, some cc =>
        if (fuzzy_match_company qc cc).isSome then min (conf0 + 15) 95 else conf0
      | _, _ => conf0
    if min_confidence ≤ conf then some ⟨contact, conf, MatchType.fuzzyName⟩ else none

/-- The sort order of `find_matches`: confidence descending, ties by contact
name ascending (`b.confidence.cmp(&a.confidence).then_with(|| a.name.cmp(&b.name))`). -/
def fmLe (a b : MatchResult) : Prop :=
  b.confidence < a.confidence ∨
    (a.confidence = b.confidence ∧ lexLe a.contact.name b.contact.name = true)

instance : DecidableRel fmLe := fun a b => by unfold fmLe; exact inferInstance

/-- `ContactMatcher::find_matches`. -/
def find_matches (query : ContactQuery) (contacts : List Contact)
    (max_results min_confidence : Nat) : List MatchResult :=
  (List.insertionSort fmLe (contacts.filterMap (match_one query min_confidence))).take
    max_results

/-! ## Full-text index (`search/full_text_index.rs`) -/

/-- `SearchableField`. -/
inductive SearchableField where
  | name
  | email
  | phone
  | company
  | jobTitle
  | note
  | reminder
deriving DecidableEq

/-- `SearchableDocument`. -/
structure SearchableDocument where
  contact_id : List Char
  contact_name : List Char
  field_type : SearchableField
  content : List Char
  item_id : Option (List Char)
deriving DecidableEq

/-- `MatchContext`. -/
structure MatchContext where
  field_type : SearchableField
  snippet : List Char
  confidence : Nat
  item_id : Option (List Char)
deriving DecidableEq

/-- `SearchResult`. -/
structure SearchResult where
  contact : Contact
  matches_ : List MatchContext
  confidence : Nat
deriving DecidableEq

/-- The tag-removal pass of `strip_html`: each `<[^>]*>` match (a `<` up to
the first following `>`) is replaced by one space; a `<` with no later `>`
cannot start a match and is kept. -/
def stripTags (s : List Char) : List Char :=
  match s with
  | [] => []
  | c :: rest =>
    if c = '<' then
      match rest.findIdx? (fun x => x == '>') with
      | some i => ' ' :: stripTags (rest.drop (i + 1))
      | none => c :: rest
    else c :: stripTags rest
termination_by s.length
decreasing_by
  · have : (rest.drop (i + 1)).length ≤ rest.length := by
      simp [List.length_drop]
    simp only [List.length_cons]
    omega
  · simp

/-- `strip_html`: remove tags, then collapse whitespace and trim
(`split_whitespace().collect().join(" ")`). -/
def strip_html (html : List Char) : List Char := joinWords (splitWs (stripTags html))

/-- `FullTextSearchIndex::index_contact`: the documents appended for one
contact with its notes and reminders (the index itself is the list of all
appended documents). -/
def index_contact (docs : List SearchableDocument) (contact : Contact)
    (notes : List Note) (reminders : List Reminder) : List SearchableDocument :=
  docs ++
  [⟨contact.id, contact.name, SearchableField.name, contact.name, none⟩] ++
  (contact.email.map fun e =>
    (⟨contact.id, contact.name, SearchableField.email, e, none⟩ : SearchableDocument)).toList ++
  (contact.emails.map fun e => ⟨contact.id, contact.name, SearchableField.email, e, none⟩) ++
  (contact.phone.map fun p =>
    (⟨contact.id, contact.name, SearchableField.phone, p, none⟩ : SearchableDocument)).toList ++
  (contact.phones.map fun p => ⟨contact.id, contact.name, SearchableField.phone, p, none⟩) ++
  (contact.company.map fun co =>
    (⟨contact.id, contact.name, SearchableField.company, co, none⟩ : SearchableDocument)).toList ++
  (contact.title.map fun t =>
    (⟨contact.id, contact.name, SearchableField.jobTitle, t, none⟩ : SearchableDocument)).toList ++
  (notes.filterMap fun n =>
    let plain_text := strip_html n.content
    if rustTrim plain_text = [] then none
    else some ⟨contact.id, contact.name, SearchableField.note, plain_text, some n.id⟩) ++
  (reminders.filterMap fun r =>
    if rustTrim r.text = [] then none
    else some ⟨contact.id, contact.name, SearchableField.reminder, r.text, some r.id⟩)

/-- The score the inner loop of `calculate_match_confidence` assigns to one
query word against one content word: 85 on substring containment, otherwise
the Levenshtein similarity scaled to 0–75 when `distance / max_len ≤ 0.4`
(embedded exactly as `5 * distance ≤ 2 * max_len`), else 0. -/
def wordScore (query_word content_word : List Char) : Nat :=
  if containsSub query_word content_word then 85
  else
    let distance := levenshtein_distance query_word content_word
    let max_len := max (byteLen query_word) (byteLen content_word)
    if 0 < max_len ∧ 5 * distance ≤ 2 * max_len then 75 * (max_len - distance) / max_len
    else 0

/-- `best_word_score` for one query word over all content words.  The source
breaks out of the loop at the first substring hit; since 85 is the largest
possible word score, the early exit computes this same maximum. -/
def bestWordScore (query_word : List Char) (content_words : List (List Char)) : Nat :=
  content_words.foldl (fun acc cw => max acc (wordScore query_word cw)) 0

/-- `FullTextSearchIndex::calculate_match_confidence`.  Floats are embedded
as exact arithmetic: `(85.0 * ratio + 10.0).min(95.0) as u8` becomes
`min (85 * |q| / |c| + 10) 95`, and `query_words.len().div_ceil(2)` becomes
`(len + 1) / 2`. -/
def calculate_match_confidence (query content : List Char) : Option Nat :=
  if query = [] ∨ content = [] then none
  else if containsSub query content then
    some (min (85 * byteLen query / byteLen content + 10) 95)
  else
    let query_words := splitWs query
    let content_words := splitWs content
    if query_words = [] ∨ content_words = [] then none
    else
      let scores := query_words.map fun w => bestWordScore w content_words
      let matched := scores.countP fun s => decide (0 < s)
      if (query_words.length + 1) / 2 ≤ matched then
        some (min (scores.sum / query_words.length) 90)
      else none

/-- `MAX_SNIPPET_LENGTH`. -/
def maxSnippetLength : Nat := 150

/-- `CONTEXT_CHARS`. -/
def contextChars : Nat := 50

def ellipsis : List Char := ['.', '.', '.']

/-- The position computation at the top of `generate_snippet`: the byte
offset of the query in the lowercased content, else the byte offset
reconstructed from the first content word containing the first query word
(summing `len + 1` over the preceding words), else 0. -/
def snippetPos (content_lower query : List Char) : Nat :=
  match byteFind content_lower query with
  | some idx => idx
  | none =>
    let first_word := ((splitWs query).head?).getD query
    let ws := splitWs content_lower
    match ws.findIdx? (fun w => containsSub first_word w) with
    | some i => ((ws.take i).map (fun w => byteLen w + 1)).sum
    | none => 0

/-- `FullTextSearchIndex::generate_snippet`.  All offsets are byte offsets;
`none` is the panic branch of the byte-range slice `original[start..end]` or
of `String::truncate`. -/
def generate_snippet (original content_lower query : List Char) : Option (List Char) :=
  let pos := snippetPos content_lower query
  let start := pos - contextChars
  let stop := min (pos + byteLen query + contextChars) (byteLen original)
  match byteSlice original start stop with
  | none => none
  | some core =>
    let withPre := if 0 < start then ellipsis ++ core else core
    let snippet := if stop < byteLen original then withPre ++ ellipsis else withPre
    if maxSnippetLength < byteLen snippet then
      (byteTruncate snippet (maxSnippetLength - 3)).map (fun t => t ++ ellipsis)
    else some snippet

/-- `FullTextSearchIndex::find_match`; `Except.error ()` is the panic of
snippet generation. -/
def find_match (doc : SearchableDocument) (query_lower : List Char) :
    Except Unit (Option MatchContext) :=
  let content_lower := rustLower doc.content
  match calculate_match_confidence query_lower content_lower with
  | none => Except.ok none
  | some conf =>
    match generate_snippet doc.content content_lower query_lower with
    | none => Except.error ()
    | some snip => Except.ok (some ⟨doc.field_type, snip, conf, doc.item_id⟩)

/-- The document loop of `FullTextSearchIndex::search`: every document whose
match clears `min_confidence` contributes a `(contact_id, MatchContext)`
pair, in document order. -/
def collectMatches (docs : List SearchableDocument) (query_lower : List Char)
    (min_confidence : Nat) : Except Unit (List (List Char × MatchContext)) :=
  match docs with
  | [] => Except.ok []
  | doc :: rest =>
    match find_match doc query_lower with
    | Except.error e => Except.error e
    | Except.ok m =>
      match collectMatches rest query_lower min_confidence with
      | Except.error e => Except.error e
      | Except.ok tail =>
        match m with
        | some ctx =>
          if min_confidence ≤ ctx.confidence then Except.ok ((doc.contact_id, ctx) :: tail)
          else Except.ok tail
        | none => Except.ok tail

/-- The per-contact confidence of `FullTextSearchIndex::search`:
`(max_confidence + (len - 1) * 5 min 15) min 100`. -/
def overallConfidence (ms : List MatchContext) : Nat :=
  let max_confidence := (ms.map fun m => m.confidence).foldl max 0
  let match_count_boost := min ((ms.length - 1) * 5) 15
  min (max_confidence + match_count_boost) 100

/-- The per-contact body of `FullTextSearchIndex::search`: resolve the
contact in the snapshot (unknown ids are dropped), compute the overall
confidence, and keep the contact when it clears `min_confidence`. -/
def buildResult (contacts : List Contact) (pairs : List (List Char × MatchContext))
    (min_confidence : Nat) (cid : List Char) : Option SearchResult :=
  match contacts.find? (fun c => c.id == cid) with
  | none => none
  | some contact =>
    let ms := (pairs.filter (fun p => p.1 == cid)).map (fun p => p.2)
    let conf := overallConfidence ms
    if min_confidence ≤ conf then some ⟨contact, ms, conf⟩ else none

/-- The sort order of `FullTextSearchIndex::search`: confidence descending. -/
def sGE (a b : SearchResult) : Prop := b.confidence ≤ a.confidence

instance : DecidableRel sGE := fun a b => by unfold sGE; exact inferInstance

/-- `FullTextSearchIndex::search`.  The `HashMap` grouping of the source is
embedded deterministically: one group per distinct contact id of the
surviving pairs (every claim below is insensitive to group order). -/
def search (docs : List SearchableDocument) (contacts : List Contact)
    (query : List Char) (max_results min_confidence : Nat) :
    Except Unit (List SearchResult) :=
  match collectMatches docs (rustLower query) min_confidence with
  | Except.error e => Except.error e
  | Except.ok pairs =>
    let keys := (pairs.map (fun p => p.1)).dedup
    let results := keys.filterMap (buildResult contacts pairs min_confidence)
    Except.ok ((List.insertionSort sGE results).take max_results)

/-! ## TTL cache (`cache/timed_cache.rs`)

Time is embedded as a `Nat` instant passed explicitly to each operation
(`Instant::now()`); durations subtract truncatedly, matching
`Instant::duration_since` under the monotone-clock assumption `t ≤ now`. -/

/-- `CacheEntry<V>`. -/
structure CacheEntry (V : Type) where
  value : V
  inserted_at : Nat
deriving DecidableEq

/-- `TimedCache<K, V>`: the backing map embedded as an association list whose
keys are kept distinct by construction (`insert` replaces), plus the fixed
TTL. -/
structure TimedCache (K V : Type) where
  entries : List (K × CacheEntry V)
  ttl : Nat

/-- `TimedCache::new(ttl)`. -/
def tc_new (K V : Type) (ttl : Nat) : TimedCache K V := ⟨[], ttl⟩

/-- `TimedCache::insert`: upsert with a fresh timestamp. -/
def tc_insert [DecidableEq K] (c : TimedCache K V) (k : K) (v : V) (now : Nat) :
    TimedCache K V :=
  ⟨(k, ⟨v, now⟩) :: c.entries.filter (fun e => decide (e.1 ≠ k)), c.ttl⟩

/-- The map lookup inside `TimedCache::get`. -/
def lookupEntry [DecidableEq K] (c : TimedCache K V) (k : K) : Option (CacheEntry V) :=
  (c.entries.find? (fun e => decide (e.1 = k))).map (fun e => e.2)

/-- `TimedCache::get`: present and young (`now - inserted_at < ttl`), else
absent. -/
def tc_get [DecidableEq K] (c : TimedCache K V) (k : K) (now : Nat) : Option V :=
  match lookupEntry c k with
  | some e => if now - e.inserted_at < c.ttl then some e.value else none
  | none => none

/-- `TimedCache::remove`. -/
def tc_remove [DecidableEq K] (c : TimedCache K V) (k : K) : TimedCache K V :=
  ⟨c.entries.filter (fun e => decide (e.1 ≠ k)), c.ttl⟩

/-- `TimedCache::cleanup_expired`: retain the young entries. -/
def tc_cleanup_expired [DecidableEq K] (c : TimedCache K V) (now : Nat) : TimedCache K V :=
  ⟨c.entries.filter (fun e => decide (now - e.2.inserted_at < c.ttl)), c.ttl⟩

/-- `TimedCache::len`: counts expired-but-unpurged entries too. -/
def tc_len (c : TimedCache K V) : Nat := c.entries.length

/-! ## Search orchestrator (`tools/search.rs`) -/

/-- `DexApiError` (`error.rs`). -/
inductive DexApiError where
  | httpError (msg : List Char)
  | apiError (status : Nat) (message : List Char)
  | jsonError (msg : List Char)
  | timeout
  | notFound (msg : List Char)
  | unauthorized
  | rateLimitExceeded
  | invalidRequest (msg : List Char)
  | other (msg : List Char)
deriving DecidableEq

/-- `SearchCache` (`tools/search.rs`): the cached index (its document list)
plus the contact snapshot. -/
structure SearchCache where
  index : List SearchableDocument
  contacts : List Contact
deriving DecidableEq

/-- The external collaborators of the orchestrator
(`ContactRepository::list`, `NoteRepository::get_for_contact`,
`ReminderRepository::get_for_contact`), embedded as response oracles taking
`(limit, offset)` respectively `(contact_id, limit, offset)`. -/
structure Repos where
  listContacts : Nat → Nat → Except DexApiError (List Contact)
  notesFor : List Char → Nat → Nat → Except DexApiError (List Note)
  remindersFor : List Char → Nat → Nat → Except DexApiError (List Reminder)

/-- The fixed cache key `"search_data"`. -/
def searchDataKey : List Char := "search_data".toList

/-- `SearchTools::fetch_all_contacts`: paged listing (page size 100) until a
short page.  The source loop has no termination bound of its own, so the
embedding carries explicit fuel (number of remaining page fetches); all
claims are stated about runs the fuel completes. -/
def fetch_all_contacts (repos : Repos) : Nat → Nat → Except DexApiError (List Contact)
  | 0, _ => Except.ok []
  | fuel + 1, offset =>
    match repos.listContacts 100 offset with
    | Except.error e => Except.error e
    | Except.ok page =>
      if page.length < 100 then Except.ok page
      else
        match fetch_all_contacts repos fuel (offset + 100) with
        | Except.error e => Except.error e
        | Except.ok rest => Except.ok (page ++ rest)

/-- The per-contact secondary fetch of `get_or_build_cache`: notes and
reminders with `unwrap_or_else(|_| Vec::new())` — an error degrades that
sub-fetch to the empty list. -/
def fetchTriple (repos : Repos) (contact : Contact) :
    Contact × List Note × List Reminder :=
  (contact,
    (match repos.notesFor contact.id 100 0 with
     | Except.ok notes => notes
     | Except.error _ => []),
    (match repos.remindersFor contact.id 100 0 with
     | Except.ok reminders => reminders
     | Except.error _ => []))

/-- Index construction from the fetched triples (the build loop of
`get_or_build_cache`). -/
def buildIndex (triples : List (Contact × List Note × List Reminder)) :
    List SearchableDocument :=
  triples.foldl (fun docs t => index_contact docs t.1 t.2.1 t.2.2) []

/-- `SearchTools::get_or_build_cache`, with the cache state passed and
returned explicitly: on a hit return the cached data, on a miss fetch all
contacts (propagating a listing error with the cache untouched), fetch the
secondary data per contact, build the index and insert it under the fixed
key.  The bounded-concurrency fan-out (`buffer_unordered(20)`) is embedded
as the sequential fetch of the same per-contact results. -/
def get_or_build_cache (repos : Repos) (fuel : Nat)
    (cache : TimedCache (List Char) SearchCache) (now : Nat) :
    Except DexApiError (SearchCache × Bool) × TimedCache (List Char) SearchCache :=
  match tc_get cache searchDataKey now with
  | some cached => (Except.ok (cached, true), cache)
  | none =>
    match fetch_all_contacts repos fuel 0 with
    | Except.error e => (Except.error e, cache)
    | Except.ok contacts =>
      let triples := contacts.map (fetchTriple repos)
      let sc : SearchCache := ⟨buildIndex triples, contacts⟩
      (Except.ok (sc, false), tc_insert cache searchDataKey sc now)

/-! ## Claims -/

/-- C8: `TimedCache::get` never returns a value whose age `now - inserted_at`
is `≥ ttl`; a value inserted at `t` and read only at `now` with
`ttl ≤ now - t` yields `none`, even though the unpurged entry still counts
toward `len` (one more than with the key removed) until `cleanup_expired`
removes it. -/
theorem c8_cache_ttl_invariant {K V : Type} [DecidableEq K]
    (c : TimedCache K V) (k : K) (v : V) (t now : Nat) :
    (∀ w, tc_get c k now = some w →
      ∃ e, lookupEntry c k = some e ∧ e.value = w ∧ now - e.inserted_at < c.ttl) ∧
    (c.ttl ≤ now - t →
      tc_get (tc_insert c k v t) k now = none ∧
      tc_len (tc_insert c k v t) = tc_len (tc_remove c k) + 1 ∧
      lookupEntry (tc_cleanup_expired (tc_insert c k v t) now) k = none) := by
  constructor
  · intro w hw
    unfold tc_get at hw
    split at hw
    next e he =>
      split at hw
      next hage => exact ⟨e, he, by simpa using hw, hage⟩
      next => simp at hw
    next => simp at hw
  · intro hexp
    have hlook : lookupEntry (tc_insert c k v t) k = some ⟨v, t⟩ := by
      unfold lookupEntry tc_insert
      simp [List.find?_cons]
    refine ⟨?_, ?_, ?_⟩
    · unfold tc_get
      rw [hlook]
      have hnot : ¬(now - t < (tc_insert c k v t).ttl) := by
        simp only [tc_insert, not_lt]
        exact hexp
      simp [hnot]
    · unfold tc_len tc_insert tc_remove
      simp
    · unfold lookupEntry tc_cleanup_expired tc_insert
      have hfind : List.find? (fun (e : K × CacheEntry V) => decide (e.1 = k))
          (List.filter (fun e => decide (now - e.2.inserted_at < c.ttl))
            ((k, (⟨v, t⟩ : CacheEntry V)) ::
              List.filter (fun e => decide (e.1 ≠ k)) c.entries)) = none := by
        rw [List.find?_eq_none]
        intro x hx
        simp only [List.mem_filter, List.mem_cons] at hx
        rcases hx with ⟨hx1 | hx1, hx2⟩
        · subst hx1
          simp only [decide_eq_true_eq] at hx2
          omega
        · have := hx1.2
          simp only [decide_eq_true_eq] at this ⊢
          simp [this]
      rw [hfind]
      rfl

/-- Witness for C8 at a concrete cache: TTL 1, inserted at instant 0, read at
instant 5. -/
theorem c8_cache_ttl_invariant_witness :
    tc_get (tc_insert (tc_new Nat Nat 1) 0 7 0) 0 5 = none ∧
    tc_len (tc_insert (tc_new Nat Nat 1) 0 7 0) = tc_len (tc_remove (tc_new Nat Nat 1) 0) + 1 ∧
    lookupEntry (tc_cleanup_expired (tc_insert (tc_new Nat Nat 1) 0 7 0) 5) 0 = none :=
  (c8_cache_ttl_invariant (tc_new Nat Nat 1) 0 7 0 5).2 (by decide)

/-- C9: when the cache misses and the paged contact listing fails, the error
propagates out of `get_or_build_cache` and the cache is left exactly as it
was (no partial write); when the listing succeeds the build always succeeds,
with each contact's notes/reminders degraded to `[]` on a secondary-fetch
error (`fetchTriple`), and the built index is cached under the fixed key. -/
theorem c9_build_atomicity (repos : Repos) (fuel : Nat)
    (cache : TimedCache (List Char) SearchCache) (now : Nat)
    (hmiss : tc_get cache searchDataKey now = none) :
    (∀ e, fetch_all_contacts repos fuel 0 = Except.error e →
      get_or_build_cache repos fuel cache now = (Except.error e, cache)) ∧
    (∀ contacts, fetch_all_contacts repos fuel 0 = Except.ok contacts →
      get_or_build_cache repos fuel cache now =
        (Except.ok (⟨buildIndex (contacts.map (fetchTriple repos)), contacts⟩, false),
          tc_insert cache searchDataKey
            ⟨buildIndex (contacts.map (fetchTriple repos)), contacts⟩ now)) := by
  constructor
  · intro e he
    unfold get_or_build_cache
    rw [hmiss, he]
  · intro contacts hc
    unfold get_or_build_cache
    rw [hmiss, hc]

/-- A repository whose contact listing is rate limited. -/
def reposListFails : Repos :=
  ⟨fun _ _ => Except.error DexApiError.rateLimitExceeded,
   fun _ _ _ => Except.ok [], fun _ _ _ => Except.ok []⟩

/-- Witness for C9 on concrete repositories: the rate-limit error of the
primary listing propagates and the (empty) cache is unchanged. -/
theorem c9_build_atomicity_witness :
    get_or_build_cache reposListFails 1 (tc_new (List Char) SearchCache 60) 0 =
      (Except.error DexApiError.rateLimitExceeded, tc_new (List Char) SearchCache 60) :=
  (c9_build_atomicity reposListFails 1 (tc_new (List Char) SearchCache 60) 0 rfl).1
    DexApiError.rateLimitExceeded rfl

/-- A 100-character document content of two-byte characters (200 bytes). -/
def c10content : List Char := List.replicate 100 'é'

/-- A 50-character query of two-byte characters (100 bytes); `'é'` is already
lowercase, so Rust's `to_lowercase` (and the embedding) leave both strings
unchanged. -/
def c10query : List Char := List.replicate 50 'é'

def c10doc : SearchableDocument :=
  ⟨"1".toList, "n".toList, SearchableField.note, c10content, some ("note1".toList)⟩

def c10contact : Contact :=
  ⟨"1".toList, "n".toList, none, [], none, [], none, none, []⟩

/-- C10: full-text search is *not* total over Unicode text.  On this input
the query is found at byte 0, the snippet window is `[0, 150)` of a 200-byte
content, the `"..."` suffix makes the snippet 153 bytes, and
`String::truncate(147)` hits the middle of a two-byte character — the panic
branch of the embedding (`none` / `Except.error`) is reached, both in
`generate_snippet` and through `FullTextSearchIndex::search`. -/
theorem c10_snippet_truncation_panics :
    generate_snippet c10content (rustLower c10content) c10query = none ∧
    search [c10doc] [c10contact] c10query 10 0 = Except.error () := by
  constructor
  · rfl
  · rfl

/-- The spec's formula for the word-matching confidence, with the average
taken over the *contributing* words only ("average of the contributing
words' scores"), as claim C1 states it. -/
def specWordConfidence (query content : List Char) : Option Nat :=
  let query_words := splitWs query
  let content_words := splitWs content
  let scores := query_words.map fun w => bestWordScore w content_words
  let matched := scores.countP fun s => decide (0 < s)
  if query_words ≠ [] ∧ content_words ≠ [] ∧
      (query_words.length + 1) / 2 ≤ matched ∧ matched ≠ 0 then
    some (min (scores.sum / matched) 90)
  else none

/-- Counterexample to C1: for query `"abc zzz"` against content `"abc"`
(no substring match), the word `"abc"` scores 85 and `"zzz"` scores 0, so the
spec's "average of the contributing words' scores" is `85 / 1 = 85`, but the
code divides by the *total* query word count: `85 / 2 = 42`. -/
theorem c1_word_confidence_cex :
    calculate_match_confidence ("abc zzz".toList) ("abc".toList) = some 42 ∧
    specWordConfidence ("abc zzz".toList) ("abc".toList) = some 85 ∧
    calculate_match_confidence ("abc zzz".toList) ("abc".toList) ≠
      specWordConfidence ("abc zzz".toList) ("abc".toList) := by
  refine ⟨by decide, by decide, by decide⟩

/-- C1 (amended): in the word-matching path (lowercased query not a substring
of the lowercased content), a confidence is produced only when at least
`ceil(word_count / 2)` of the query words score positively against some
content word, and it equals `min 90` of the *total* word score divided by the
*total* number of query words (floor division) — not the average over the
contributing words only. -/
theorem c1_word_confidence_amended (query content : List Char)
    (hsub : containsSub query content = false) (conf : Nat)
    (h : calculate_match_confidence query content = some conf) :
    ((splitWs query).length + 1) / 2 ≤
      (((splitWs query).map fun w => bestWordScore w (splitWs content)).countP
        fun s => decide (0 < s)) ∧
    conf = min ((((splitWs query).map fun w => bestWordScore w (splitWs content)).sum) /
      (splitWs query).length) 90 := by
  by_cases hq : query = []
  · subst hq
    have : containsSub [] content = true := by cases content <;> rfl
    rw [this] at hsub
    exact absurd hsub (by simp)
  · by_cases hc : content = []
    · subst hc
      unfold calculate_match_confidence at h
      rw [if_pos (Or.inr rfl)] at h
      exact absurd h (by simp)
    · unfold calculate_match_confidence at h
      rw [if_neg (by tauto)] at h
      rw [if_neg (by simp [hsub])] at h
      simp only at h
      split at h
      · exact absurd h (by simp)
      · split at h
        · exact ⟨by assumption, by simpa using h.symm⟩
        · exact absurd h (by simp)

/-- Witness for C1 (amended) at query `"abc abd"` against content `"abd"`:
scores `[50, 85]`, both words contribute, confidence `135 / 2 = 67`. -/
theorem c1_word_confidence_amended_witness :
    calculate_match_confidence ("abc abd".toList) ("abd".toList) = some 67 ∧
    ((splitWs ("abc abd".toList)).length + 1) / 2 ≤
      (((splitWs ("abc abd".toList)).map fun w =>
        bestWordScore w (splitWs ("abd".toList))).countP fun s => decide (0 < s)) ∧
    67 = min ((((splitWs ("abc abd".toList)).map fun w =>
      bestWordScore w (splitWs ("abd".toList))).sum) / (splitWs ("abc abd".toList)).length) 90 := by
  refine ⟨by decide, ?_⟩
  exact c1_word_confidence_amended ("abc abd".toList) ("abd".toList) (by decide) 67 (by decide)

/-! ### Confidence-bound lemmas -/

theorem utf8Size_pos (c : Char) : 0 < utf8Size c := by
  unfold utf8Size
  split <;> try omega
  split <;> try omega
  split <;> omega

theorem byteLen_cons (c : Char) (s : List Char) :
    byteLen (c :: s) = utf8Size c + byteLen s := by
  simp [byteLen]

theorem byteLen_pos {s : List Char} (h : s ≠ []) : 0 < byteLen s := by
  cases s with
  | nil => exact absurd rfl h
  | cons c rest =>
    rw [byteLen_cons]
    have := utf8Size_pos c
    omega

theorem isPrefixList_byteLen_le {p s : List Char} (h : isPrefixList p s = true) :
    byteLen p ≤ byteLen s := by
  induction p generalizing s with
  | nil => simp [byteLen]
  | cons a p ih =>
    cases s with
    | nil => simp [isPrefixList] at h
    | cons b s =>
      simp only [isPrefixList, Bool.and_eq_true, beq_iff_eq] at h
      rw [byteLen_cons, byteLen_cons, h.1]
      exact Nat.add_le_add_left (ih h.2) _

theorem containsSub_byteLen_le {n h : List Char} (hc : containsSub n h = true) :
    byteLen n ≤ byteLen h := by
  induction h with
  | nil =>
    unfold containsSub at hc
    split at hc
    · exact isPrefixList_byteLen_le (by assumption)
    · simp at hc
  | cons c rest ih =>
    unfold containsSub at hc
    split at hc
    · exact isPrefixList_byteLen_le (by assumption)
    · have := ih hc
      rw [byteLen_cons]
      omega

theorem mul_div_le_of_le {a b k : Nat} (hb : 0 < b) (h : a ≤ b) : k * a / b ≤ k := by
  calc k * a / b ≤ k * b / b := Nat.div_le_div_right (Nat.mul_le_mul_left k h)
    _ = k := Nat.mul_div_cancel k hb

/-- `calculate_fuzzy_score` is bounded by 95 in every branch. -/
theorem calculate_fuzzy_score_le (query target : List Char) :
    calculate_fuzzy_score query target ≤ 95 := by
  unfold calculate_fuzzy_score
  split
  · omega
  · split
    · omega
    · next hne _ =>
      split
      · next hcont =>
        have htpos : 0 < byteLen target := byteLen_pos (by tauto)
        have hle : byteLen query ≤ byteLen target := containsSub_byteLen_le hcont
        have := mul_div_le_of_le (k := 85) htpos hle
        omega
      · split
        · omega
        · dsimp only
          split
          · omega
          · have hqpos : 0 < byteLen query := byteLen_pos (by tauto)
            have hmax : 0 < max (byteLen query) (byteLen target) := by
              have := Nat.le_max_left (byteLen query) (byteLen target)
              omega
            have hsub : max (byteLen query) (byteLen target) - levenshtein_distance query target ≤
                max (byteLen query) (byteLen target) := Nat.sub_le _ _
            have := mul_div_le_of_le (k := 85) hmax hsub
            omega

theorem match_email_eq_100 {e : List Char} {c : Contact} {conf : Nat}
    (h : match_email e c = some conf) : conf = 100 := by
  unfold match_email at h
  dsimp only at h
  split at h
  · simpa using h.symm
  · simp at h

theorem match_phone_eq_100 {p : List Char} {c : Contact} {conf : Nat}
    (h : match_phone p c = some conf) : conf = 100 := by
  unfold match_phone at h
  dsimp only at h
  split at h
  · simpa using h.symm
  · simp at h

theorem match_social_url_eq_100 {u : List Char} {c : Contact} {conf : Nat}
    (h : match_social_url u c = some conf) : conf = 100 := by
  unfold match_social_url at h
  dsimp only at h
  split at h
  · simpa using h.symm
  · simp at h

theorem fuzzy_match_name_le {n m : List Char} {conf : Nat}
    (h : fuzzy_match_name n m = some conf) : 0 < conf ∧ conf ≤ 95 := by
  unfold fuzzy_match_name at h
  dsimp only at h
  split at h
  · have h95 := calculate_fuzzy_score_le (normalize_name n) (normalize_name m)
    have := Option.some.inj h
    omega
  · simp at h

/-- Every result produced by the per-contact matching body: exact matches
carry confidence 100, fuzzy matches at most 95. -/
theorem match_one_spec {query : ContactQuery} {min_confidence : Nat} {c : Contact}
    {r : MatchResult} (h : match_one query min_confidence c = some r) :
    r.contact = c ∧
    ((r.match_type ≠ MatchType.fuzzyName ∧ r.confidence = 100) ∨
      (r.match_type = MatchType.fuzzyName ∧ min_confidence ≤ r.confidence ∧
        0 < r.confidence ∧ r.confidence ≤ 95)) := by
  unfold match_one at h
  split at h
  · next conf heq =>
    cases h
    rcases Option.bind_eq_some.mp heq with ⟨e, _, he⟩
    have := match_email_eq_100 he
    exact ⟨rfl, Or.inl ⟨by simp, this⟩⟩
  · split at h
    · next conf heq =>
      cases h
      rcases Option.bind_eq_some.mp heq with ⟨p, _, hp⟩
      have := match_phone_eq_100 hp
      exact ⟨rfl, Or.inl ⟨by simp, this⟩⟩
    · split at h
      · next conf heq =>
        cases h
        rcases Option.bind_eq_some.mp heq with ⟨u, _, hu⟩
        have := match_social_url_eq_100 hu
        exact ⟨rfl, Or.inl ⟨by simp, this⟩⟩
      · split at h
        · simp at h
        · next conf0 heq =>
          rcases Option.bind_eq_some.mp heq with ⟨n, _, hn⟩
          have hf := fuzzy_match_name_le hn
          dsimp only at h
          split at h
          · next hge =>
            cases h
            refine ⟨rfl, Or.inr ⟨rfl, hge, ?_, ?_⟩⟩ <;>
            · dsimp only
              split
              · split <;> omega
              · omega
          · simp at h

/-- `calculate_match_confidence` is bounded by 95 in every branch. -/
theorem calculate_match_confidence_le {q c : List Char} {conf : Nat}
    (h : calculate_match_confidence q c = some conf) : conf ≤ 95 := by
  unfold calculate_match_confidence at h
  split at h
  · simp at h
  · split at h
    · have := Option.some.inj h
      omega
    · simp only at h
      split at h
      · simp at h
      · split at h
        · have := Option.some.inj h
          omega
        · simp at h

theorem find_match_confidence {doc : SearchableDocument} {ql : List Char}
    {ctx : MatchContext} (h : find_match doc ql = Except.ok (some ctx)) :
    ctx.confidence ≤ 95 := by
  unfold find_match at h
  dsimp only at h
  split at h
  · simp at h
  · next conf hconf =>
    split at h
    · simp at h
    · cases h
      simp only
      exact calculate_match_confidence_le hconf

/-- Every pair collected by the document loop has confidence at least
`min_confidence` and at most 95. -/
theorem collectMatches_confidence {docs : List SearchableDocument} {ql : List Char}
    {minC : Nat} {pairs : List (List Char × MatchContext)}
    (h : collectMatches docs ql minC = Except.ok pairs) :
    ∀ p ∈ pairs, minC ≤ p.2.confidence ∧ p.2.confidence ≤ 95 := by
  induction docs generalizing pairs with
  | nil =>
    unfold collectMatches at h
    cases h
    simp
  | cons doc rest ih =>
    unfold collectMatches at h
    cases hm : find_match doc ql with
    | error e => rw [hm] at h; exact absurd h (by simp)
    | ok m =>
      rw [hm] at h
      cases hr : collectMatches rest ql minC with
      | error e =>
        rw [hr] at h
        cases m <;> simp at h
      | ok tail =>
        rw [hr] at h
        have htail := ih hr
        cases m with
        | none =>
          have hte : tail = pairs := Except.ok.inj h
          subst hte
          exact htail
        | some ctx =>
          replace h : (if minC ≤ ctx.confidence then
              Except.ok ((doc.contact_id, ctx) :: tail)
            else Except.ok tail) = Except.ok pairs := h
          split at h
          · next hge =>
            have hte : (doc.contact_id, ctx) :: tail = pairs := Except.ok.inj h
            subst hte
            intro p hp
            rcases List.mem_cons.mp hp with hp | hp
            · subst hp
              exact ⟨hge, find_match_confidence hm⟩
            · exact htail p hp
          · have hte : tail = pairs := Except.ok.inj h
            subst hte
            exact htail

theorem buildResult_some {contacts : List Contact}
    {pairs : List (List Char × MatchContext)} {minC : Nat} {cid : List Char}
    {r : SearchResult} (h : buildResult contacts pairs minC cid = some r) :
    r.matches_ = (pairs.filter (fun p => p.1 == cid)).map (fun p => p.2) ∧
    r.confidence = overallConfidence r.matches_ ∧ minC ≤ r.confidence := by
  unfold buildResult at h
  split at h
  · simp at h
  · dsimp only at h
    split at h
    · next hge =>
      cases h
      exact ⟨rfl, rfl, hge⟩
    · simp at h

/-- Every member of the search output arises from `buildResult` at some
contact id that occurs among the collected pairs. -/
theorem search_mem {docs : List SearchableDocument} {contacts : List Contact}
    {query : List Char} {maxR minC : Nat} {results : List SearchResult}
    {r : SearchResult}
    (hs : search docs contacts query maxR minC = Except.ok results)
    (hr : r ∈ results) :
    ∃ pairs cid, collectMatches docs (rustLower query) minC = Except.ok pairs ∧
      cid ∈ pairs.map (fun p => p.1) ∧
      buildResult contacts pairs minC cid = some r := by
  unfold search at hs
  cases hcm : collectMatches docs (rustLower query) minC with
  | error e => rw [hcm] at hs; exact absurd hs (by simp)
  | ok pairs =>
    rw [hcm] at hs
    have heq : (List.insertionSort sGE
        (((pairs.map (fun p => p.1)).dedup).filterMap
          (buildResult contacts pairs minC))).take maxR = results :=
      Except.ok.inj hs
    subst heq
    have hr1 := List.mem_of_mem_take hr
    rw [List.mem_insertionSort] at hr1
    obtain ⟨cid, hcid, hbr⟩ := List.mem_filterMap.mp hr1
    exact ⟨pairs, cid, rfl, List.mem_dedup.mp hcid, hbr⟩

theorem filter_fst_ne_nil {pairs : List (List Char × MatchContext)} {cid : List Char}
    (h : cid ∈ pairs.map (fun p => p.1)) :
    pairs.filter (fun p => p.1 == cid) ≠ [] := by
  rcases List.mem_map.mp h with ⟨p, hp, rfl⟩
  intro hnil
  have hpm : p ∈ pairs.filter (fun q => q.1 == p.1) := List.mem_filter.mpr ⟨hp, by simp⟩
  rw [hnil] at hpm
  simp at hpm

theorem overallConfidence_le_100 (ms : List MatchContext) : overallConfidence ms ≤ 100 := by
  unfold overallConfidence
  exact Nat.min_le_right _ _

/-- C4: all confidences are bounded — `calculate_fuzzy_score` never exceeds
95, every `find_matches` result is at most 100 (100 only for exact matches),
and every full-text `SearchResult` confidence and per-match confidence is at
most 100.  (Confidences are embedded as `Nat`, so the lower bound 0 of the
claimed interval `[0,100]` holds by typing.) -/
theorem c4_confidence_bounds :
    (∀ query target : List Char, calculate_fuzzy_score query target ≤ 95) ∧
    (∀ (query : ContactQuery) (contacts : List Contact) (max_results min_confidence : Nat),
      ∀ r ∈ find_matches query contacts max_results min_confidence,
        r.confidence ≤ 100) ∧
    (∀ (docs : List SearchableDocument) (contacts : List Contact) (query : List Char)
      (max_results min_confidence : Nat) (results : List SearchResult),
      search docs contacts query max_results min_confidence = Except.ok results →
      ∀ r ∈ results, r.confidence ≤ 100 ∧ ∀ m ∈ r.matches_, m.confidence ≤ 100) := by
  refine ⟨calculate_fuzzy_score_le, ?_, ?_⟩
  · intro query contacts max_results min_confidence r hr
    unfold find_matches at hr
    have hr1 := List.mem_of_mem_take hr
    rw [List.mem_insertionSort] at hr1
    obtain ⟨c, _, hc⟩ := List.mem_filterMap.mp hr1
    rcases (match_one_spec hc).2 with ⟨_, h100⟩ | ⟨_, _, _, h95⟩
    · omega
    · omega
  · intro docs contacts query max_results min_confidence results hs r hr
    obtain ⟨pairs, cid, hcm, _, hbr⟩ := search_mem hs hr
    obtain ⟨hm, hconf, _⟩ := buildResult_some hbr
    refine ⟨?_, ?_⟩
    · rw [hconf]
      exact overallConfidence_le_100 _
    · intro m hmm
      rw [hm] at hmm
      obtain ⟨p, hp, rfl⟩ := List.mem_map.mp hmm
      have hp2 := (collectMatches_confidence hcm p (List.mem_filter.mp hp).1).2
      omega

def c4Contact : Contact := ⟨"1".toList, "bob".toList, none, [], none, [], none, none, []⟩

def c4Doc : SearchableDocument :=
  ⟨"1".toList, "bob".toList, SearchableField.name, "bob".toList, none⟩

def c4Result : SearchResult :=
  ⟨c4Contact, [⟨SearchableField.name, "bob".toList, 95, none⟩], 95⟩

/-- Witness for C4 on a one-document index. -/
theorem c4_confidence_bounds_witness :
    search [c4Doc] [c4Contact] ("bob".toList) 10 0 = Except.ok [c4Result] ∧
    c4Result.confidence ≤ 100 :=
  ⟨rfl,
    (c4_confidence_bounds.2.2 [c4Doc] [c4Contact] ("bob".toList) 10 0 [c4Result]
      rfl c4Result (by simp)).1⟩

/-- C2: every contact in the full-text search output carries at least one
match, and its overall confidence is exactly
`min(100, max(per-match confidence) + min(15, 5 * (match_count - 1)))`; in
particular it is at most `min(100, best_match_confidence + 15)`. -/
theorem c2_overall_confidence (docs : List SearchableDocument)
    (contacts : List Contact) (query : List Char)
    (max_results min_confidence : Nat) (results : List SearchResult)
    (h : search docs contacts query max_results min_confidence = Except.ok results) :
    ∀ r ∈ results,
      r.matches_ ≠ [] ∧
      r.confidence =
        min (((r.matches_.map fun m => m.confidence).foldl max 0) +
          min ((r.matches_.length - 1) * 5) 15) 100 ∧
      r.confidence ≤ min (((r.matches_.map fun m => m.confidence).foldl max 0) + 15) 100 := by
  intro r hr
  obtain ⟨pairs, cid, hcm, hcid, hbr⟩ := search_mem h hr
  obtain ⟨hm, hconf, _⟩ := buildResult_some hbr
  have hne : r.matches_ ≠ [] := by
    rw [hm]
    intro hnil
    exact filter_fst_ne_nil hcid (List.map_eq_nil_iff.mp hnil)
  refine ⟨hne, hconf, ?_⟩
  rw [hconf]
  unfold overallConfidence
  have hboost : min ((r.matches_.length - 1) * 5) 15 ≤ 15 := Nat.min_le_right _ _
  exact min_le_min (by omega) (le_refl 100)

def c2Contact : Contact := ⟨"2".toList, "bob".toList, none, [], none, [], none, none, []⟩

def c2Docs : List SearchableDocument :=
  [⟨"2".toList, "bob".toList, SearchableField.name, "bob".toList, none⟩,
   ⟨"2".toList, "bob".toList, SearchableField.company, "bob co".toList, none⟩]

def c2Result : SearchResult :=
  ⟨c2Contact,
    [⟨SearchableField.name, "bob".toList, 95, none⟩,
     ⟨SearchableField.company, "bob co".toList, 52, none⟩], 100⟩

/-- Witness for C2: two matching fields, best 95, boost `5 * 1 = 5`, overall
`min(100, 95 + 5) = 100`. -/
theorem c2_overall_confidence_witness :
    search c2Docs [c2Contact] ("bob".toList) 10 0 = Except.ok [c2Result] ∧
    c2Result.matches_ ≠ [] ∧
    c2Result.confidence =
      min (((c2Result.matches_.map fun m => m.confidence).foldl max 0) +
        min ((c2Result.matches_.length - 1) * 5) 15) 100 ∧
    c2Result.confidence ≤
      min (((c2Result.matches_.map fun m => m.confidence).foldl max 0) + 15) 100 :=
  ⟨rfl,
    c2_overall_confidence c2Docs [c2Contact] ("bob".toList) 10 0 [c2Result]
      rfl c2Result (by simp)⟩

/-! ### Ordering lemmas for the result sorts -/

theorem lexLe_total (s t : List Char) : lexLe s t = true ∨ lexLe t s = true := by
  induction s generalizing t with
  | nil => exact Or.inl rfl
  | cons a s ih =>
    cases t with
    | nil => exact Or.inr rfl
    | cons b t =>
      by_cases hab : a.toNat = b.toNat
      · rcases ih t with h | h
        · left; simpa [lexLe, hab] using h
        · right; simpa [lexLe, hab.symm] using h
      · rcases Nat.lt_or_ge a.toNat b.toNat with hlt | hge
        · left; simp [lexLe, hab, hlt]
        · right
          have : b.toNat < a.toNat := by omega
          simp [lexLe, Ne.symm hab, this]

theorem lexLe_trans {s t u : List Char} (h1 : lexLe s t = true) (h2 : lexLe t u = true) :
    lexLe s u = true := by
  induction s generalizing t u with
  | nil => rfl
  | cons a s ih =>
    cases t with
    | nil => simp [lexLe] at h1
    | cons b t =>
      cases u with
      | nil => simp [lexLe] at h2
      | cons c u =>
        simp only [lexLe] at h1 h2 ⊢
        by_cases hab : a.toNat = b.toNat
        · by_cases hbc : b.toNat = c.toNat
          · rw [if_pos hab] at h1
            rw [if_pos hbc] at h2
            rw [if_pos (hab.trans hbc)]
            exact ih h1 h2
          · rw [if_neg hbc] at h2
            rw [if_neg (by omega : ¬a.toNat = c.toNat)]
            simp only [decide_eq_true_eq] at h2 ⊢
            omega
        · rw [if_neg hab] at h1
          simp only [decide_eq_true_eq] at h1
          by_cases hbc : b.toNat = c.toNat
          · rw [if_neg (by omega : ¬a.toNat = c.toNat)]
            simp only [decide_eq_true_eq]
            omega
          · rw [if_neg hbc] at h2
            simp only [decide_eq_true_eq] at h2
            rw [if_neg (by omega : ¬a.toNat = c.toNat)]
            simp only [decide_eq_true_eq]
            omega

instance : IsTotal MatchResult fmLe where
  total a b := by
    unfold fmLe
    rcases Nat.lt_trichotomy a.confidence b.confidence with h | h | h
    · exact Or.inr (Or.inl h)
    · rcases lexLe_total a.contact.name b.contact.name with hl | hl
      · exact Or.inl (Or.inr ⟨h, hl⟩)
      · exact Or.inr (Or.inr ⟨h.symm, hl⟩)
    · exact Or.inl (Or.inl h)

instance : IsTrans MatchResult fmLe where
  trans a b c hab hbc := by
    unfold fmLe at *
    rcases hab with hab | ⟨hab1, hab2⟩
    · rcases hbc with hbc | ⟨hbc1, hbc2⟩
      · exact Or.inl (by omega)
      · exact Or.inl (by omega)
    · rcases hbc with hbc | ⟨hbc1, hbc2⟩
      · exact Or.inl (by omega)
      · exact Or.inr ⟨hab1.trans hbc1, lexLe_trans hab2 hbc2⟩

instance : IsTotal SearchResult sGE where
  total a b := by
    unfold sGE
    omega

instance : IsTrans SearchResult sGE where
  trans a b c hab hbc := by
    unfold sGE at *
    omega

theorem match_one_exact_email {query : ContactQuery} {minC : Nat} {contact : Contact}
    {qe : List Char} (hq : query.email = some qe)
    (hm : match_email qe contact = some 100) :
    match_one query minC contact = some ⟨contact, 100, MatchType.exactEmail⟩ := by
  unfold match_one
  rw [hq]
  have hb : (some qe).bind (fun e => match_email e contact) = some 100 := by simpa using hm
  rw [hb]

theorem match_one_exact_phone {query : ContactQuery} {minC : Nat} {contact : Contact}
    {qp : List Char} (hq : query.phone = some qp)
    (hm : match_phone qp contact = some 100)
    (hne : query.email.bind (fun e => match_email e contact) = none) :
    match_one query minC contact = some ⟨contact, 100, MatchType.exactPhone⟩ := by
  unfold match_one
  rw [hne, hq]
  have hb : (some qp).bind (fun p => match_phone p contact) = some 100 := by simpa using hm
  rw [hb]

theorem match_one_exact_social {query : ContactQuery} {minC : Nat} {contact : Contact}
    {qu : List Char} (hq : query.social_url = some qu)
    (hm : match_social_url qu contact = some 100)
    (hne : query.email.bind (fun e => match_email e contact) = none)
    (hnp : query.phone.bind (fun p => match_phone p contact) = none) :
    match_one query minC contact = some ⟨contact, 100, MatchType.exactSocial⟩ := by
  unfold match_one
  rw [hne, hnp, hq]
  have hb : (some qu).bind (fun u => match_social_url u contact) = some 100 := by
    simpa using hm
  rw [hb]

theorem bind_none_of_forall {α β : Type} {o : Option α} {f : α → Option β}
    (h : ∀ x, o = some x → f x = none) : o.bind f = none := by
  cases o with
  | none => rfl
  | some x => simpa using h x rfl

/-- Membership in `find_matches` from a per-contact hit, when the whole
result list fits within `max_results`. -/
theorem find_matches_mem {query : ContactQuery} {contacts : List Contact}
    {max_results min_confidence : Nat} {contact : Contact} {r : MatchResult}
    (hcap : contacts.length ≤ max_results) (hc : contact ∈ contacts)
    (hm : match_one query min_confidence contact = some r) :
    r ∈ find_matches query contacts max_results min_confidence := by
  unfold find_matches
  have hmem : r ∈ contacts.filterMap (match_one query min_confidence) :=
    List.mem_filterMap.mpr ⟨contact, hc, hm⟩
  have hlen : (List.insertionSort fmLe
      (contacts.filterMap (match_one query min_confidence))).length ≤ max_results := by
    rw [(List.perm_insertionSort fmLe _).length_eq]
    exact le_trans (List.length_filterMap_le _ _) hcap
  rw [List.take_of_length_le hlen, List.mem_insertionSort]
  exact hmem

theorem find_matches_result_conf {query : ContactQuery} {contacts : List Contact}
    {maxR minC : Nat} {r : MatchResult}
    (hr : r ∈ find_matches query contacts maxR minC) :
    (r.match_type = MatchType.fuzzyName → r.confidence ≤ 95) ∧
    (r.match_type ≠ MatchType.fuzzyName → r.confidence = 100) := by
  unfold find_matches at hr
  have hr1 := List.mem_of_mem_take hr
  rw [List.mem_insertionSort] at hr1
  obtain ⟨c, _, hc⟩ := List.mem_filterMap.mp hr1
  rcases (match_one_spec hc).2 with ⟨ht, h100⟩ | ⟨ht, _, _, h95⟩
  · exact ⟨fun hf => absurd hf ht, fun _ => h100⟩
  · exact ⟨fun _ => h95, fun hne => absurd ht hne⟩

theorem find_matches_sorted (query : ContactQuery) (contacts : List Contact)
    (maxR minC : Nat) :
    List.Sorted fmLe (find_matches query contacts maxR minC) := by
  unfold find_matches
  exact List.Pairwise.sublist (List.take_sublist _ _) (List.sorted_insertionSort fmLe _)

/-- Counterexample to C3 as stated: with `max_results = 0` (truncation), a
query equal to the contact's email produces no result at all. -/
theorem c3_exact_supremacy_cex :
    match_email ("a@b.c".toList)
      ⟨"1".toList, "N".toList, some ("a@b.c".toList), [], none, [], none, none, []⟩ = some 100 ∧
    find_matches ⟨none, some ("a@b.c".toList), none, none, none⟩
      [⟨"1".toList, "N".toList, some ("a@b.c".toList), [], none, [], none, none, []⟩] 0 30 = [] :=
  ⟨rfl, rfl⟩

/-- C3 (amended): provided the contact list fits within `max_results`, a
query whose email (resp. phone, social URL) matches a contact's stored
emails (phones, social profile URLs) after normalization yields that contact
with confidence exactly 100 and the corresponding exact match type — for
phone and social only when no higher-priority exact field of the same query
also matches that contact, since the per-contact rules fire in the order
email, phone, social, fuzzy with the first hit winning; and in the returned
list every exact-typed result is ranked above every fuzzy-typed result. -/
theorem c3_exact_supremacy_amended (query : ContactQuery) (contacts : List Contact)
    (max_results min_confidence : Nat) (hcap : contacts.length ≤ max_results) :
    (∀ contact ∈ contacts, ∀ qe, query.email = some qe →
      match_email qe contact = some 100 →
      ∃ r ∈ find_matches query contacts max_results min_confidence,
        r.contact = contact ∧ r.confidence = 100 ∧ r.match_type = MatchType.exactEmail) ∧
    (∀ contact ∈ contacts, ∀ qp, query.phone = some qp →
      match_phone qp contact = some 100 →
      (∀ qe, query.email = some qe → match_email qe contact = none) →
      ∃ r ∈ find_matches query contacts max_results min_confidence,
        r.contact = contact ∧ r.confidence = 100 ∧ r.match_type = MatchType.exactPhone) ∧
    (∀ contact ∈ contacts, ∀ qu, query.social_url = some qu →
      match_social_url qu contact = some 100 →
      (∀ qe, query.email = some qe → match_email qe contact = none) →
      (∀ qp, query.phone = some qp → match_phone qp contact = none) →
      ∃ r ∈ find_matches query contacts max_results min_confidence,
        r.contact = contact ∧ r.confidence = 100 ∧ r.match_type = MatchType.exactSocial) ∧
    (∀ (i j : Nat)
      (hi : i < (find_matches query contacts max_results min_confidence).length)
      (hj : j < (find_matches query contacts max_results min_confidence).length),
      ((find_matches query contacts max_results min_confidence).get ⟨i, hi⟩).match_type =
        MatchType.fuzzyName →
      ((find_matches query contacts max_results min_confidence).get ⟨j, hj⟩).match_type ≠
        MatchType.fuzzyName →
      j < i) := by
  refine ⟨?_, ?_, ?_, ?_⟩
  · intro contact hc qe hq hm
    exact ⟨⟨contact, 100, MatchType.exactEmail⟩,
      find_matches_mem hcap hc (match_one_exact_email hq hm), rfl, rfl, rfl⟩
  · intro contact hc qp hq hm hne
    exact ⟨⟨contact, 100, MatchType.exactPhone⟩,
      find_matches_mem hcap hc
        (match_one_exact_phone hq hm (bind_none_of_forall hne)), rfl, rfl, rfl⟩
  · intro contact hc qu hq hm hne hnp
    exact ⟨⟨contact, 100, MatchType.exactSocial⟩,
      find_matches_mem hcap hc
        (match_one_exact_social hq hm (bind_none_of_forall hne)
          (bind_none_of_forall hnp)), rfl, rfl, rfl⟩
  · intro i j hi hj hfi hfj
    by_contra hij
    have hle : i ≤ j := by omega
    have hne' : i ≠ j := by
      intro he
      subst he
      exact hfj hfi
    have hlt : (⟨i, hi⟩ : Fin _) < ⟨j, hj⟩ := by
      simp only [Fin.mk_lt_mk]
      omega
    have hrel := (find_matches_sorted query contacts max_results min_confidence).rel_get_of_lt hlt
    have h95 := (find_matches_result_conf
      (List.get_mem (find_matches query contacts max_results min_confidence) i hi)).1 hfi
    have h100 := (find_matches_result_conf
      (List.get_mem (find_matches query contacts max_results min_confidence) j hj)).2 hfj
    unfold fmLe at hrel
    rcases hrel with hrel | ⟨hrel, _⟩ <;> omega

def c3wContact : Contact :=
  ⟨"1".toList, "N".toList, some ("a@b.c".toList), [], none, [], none, none, []⟩

def c3wQuery : ContactQuery := ⟨none, some ("a@b.c".toList), none, none, none⟩

/-- Witness for C3 (amended) on one contact with a matching email query. -/
theorem c3_exact_supremacy_amended_witness :
    ∃ r ∈ find_matches c3wQuery [c3wContact] 5 0,
      r.contact = c3wContact ∧ r.confidence = 100 ∧
      r.match_type = MatchType.exactEmail :=
  (c3_exact_supremacy_amended c3wQuery [c3wContact] 5 0 (by decide)).1 c3wContact
    (by simp) ("a@b.c".toList) rfl rfl

/-! ### Threshold-monotonicity lemmas -/

theorem filterMap_length_mono {α β : Type} {f g : α → Option β}
    (h : ∀ a, (g a).isSome = true → (f a).isSome = true) (l : List α) :
    (l.filterMap g).length ≤ (l.filterMap f).length := by
  induction l with
  | nil => simp
  | cons a l ih =>
    rw [List.filterMap_cons, List.filterMap_cons]
    cases hg : g a with
    | none =>
      cases hf : f a with
      | none => exact ih
      | some b => simp only [List.length_cons]; omega
    | some b =>
      cases hf : f a with
      | none =>
        have := h a (by simp [hg])
        rw [hf] at this
        simp at this
      | some c => simp only [List.length_cons]; omega

theorem match_one_isSome_mono {query : ContactQuery} {m1 m2 : Nat} (h12 : m1 ≤ m2)
    (c : Contact) (h : (match_one query m2 c).isSome = true) :
    (match_one query m1 c).isSome = true := by
  unfold match_one at h ⊢
  cases he : (query.email.bind fun e => match_email e c) with
  | some conf => simp
  | none =>
    rw [he] at h
    cases hp : (query.phone.bind fun p => match_phone p c) with
    | some conf => simp
    | none =>
      rw [hp] at h
      cases hu : (query.social_url.bind fun u => match_social_url u c) with
      | some conf => simp
      | none =>
        rw [hu] at h
        cases hn : (query.name.bind fun n => fuzzy_match_name n c.name) with
        | none => rw [hn] at h; simp at h
        | some conf0 =>
          rw [hn] at h
          dsimp only at h ⊢
          split at h
          · next hge => rw [if_pos (le_trans h12 hge)]; simp
          · simp at h

theorem foldl_max_le {l : List Nat} {acc b : Nat} (hacc : acc ≤ b)
    (h : ∀ x ∈ l, x ≤ b) : l.foldl max acc ≤ b := by
  induction l generalizing acc with
  | nil => exact hacc
  | cons x l ih =>
    refine ih ?_ (fun y hy => h y (by simp [hy]))
    have := h x (by simp)
    simp only [Nat.max_le]
    exact ⟨hacc, this⟩

theorem mem_le_foldl_max {l : List Nat} {x : Nat} (h : x ∈ l) (acc : Nat) :
    x ≤ l.foldl max acc := by
  induction l generalizing acc with
  | nil => simp at h
  | cons y l ih =>
    rcases List.mem_cons.mp h with rfl | hm
    · calc x ≤ max acc x := Nat.le_max_right _ _
        _ ≤ l.foldl max (max acc x) := by
          clear ih h
          induction l generalizing acc with
          | nil => exact le_refl _
          | cons z l ih2 =>
            calc max acc x ≤ max (max acc x) z := Nat.le_max_left _ _
              _ ≤ _ := by
                simp only [List.foldl_cons]
                have harr : max (max acc x) z = max (max acc z) x := by omega
                rw [harr]
                exact ih2 ..
    · exact ih hm _

theorem filter_conf_sub {l : List MatchContext} {m1 m2 : Nat} (h : m1 ≤ m2) :
    l.filter (fun m => decide (m2 ≤ m.confidence)) =
      (l.filter (fun m => decide (m1 ≤ m.confidence))).filter
        (fun m => decide (m2 ≤ m.confidence)) := by
  rw [List.filter_filter]
  apply List.filter_congr
  intro m _
  by_cases h2 : m2 ≤ m.confidence
  · have h1 : m1 ≤ m.confidence := le_trans h h2
    simp [h1, h2]
  · simp [h2]

theorem filter_pairs_sub {l : List (List Char × MatchContext)} {m1 m2 : Nat} (h : m1 ≤ m2) :
    l.filter (fun p => decide (m2 ≤ p.2.confidence)) =
      (l.filter (fun p => decide (m1 ≤ p.2.confidence))).filter
        (fun p => decide (m2 ≤ p.2.confidence)) := by
  rw [List.filter_filter]
  apply List.filter_congr
  intro p _
  by_cases h2 : m2 ≤ p.2.confidence
  · have h1 : m1 ≤ p.2.confidence := le_trans h h2
    simp [h1, h2]
  · simp [h2]

theorem filter_comm_pairs (l : List (List Char × MatchContext))
    (p q : List Char × MatchContext → Bool) :
    (l.filter p).filter q = (l.filter q).filter p := by
  rw [List.filter_filter, List.filter_filter]
  apply List.filter_congr
  intro x _
  exact Bool.and_comm _ _

theorem length_filterMap_eq_filter {α β : Type} (f : α → Option β) (l : List α) :
    (l.filterMap f).length = (l.filter (fun a => (f a).isSome)).length := by
  induction l with
  | nil => rfl
  | cons a l ih =>
    cases hf : f a <;>
      simp [List.filterMap_cons, List.filter_cons, hf, ih]

/-- `collectMatches` at threshold `minC` is the 0-threshold collection with
the per-match filter applied. -/
theorem collectMatches_filter (docs : List SearchableDocument) (ql : List Char)
    (minC : Nat) :
    collectMatches docs ql minC =
      (collectMatches docs ql 0).map
        (fun pairs => pairs.filter (fun p => decide (minC ≤ p.2.confidence))) := by
  induction docs with
  | nil => rfl
  | cons doc rest ih =>
    unfold collectMatches
    cases hm : find_match doc ql with
    | error e => rfl
    | ok m =>
      rw [ih]
      cases hrec : collectMatches rest ql 0 with
      | error e =>
        cases m with
        | none => rfl
        | some ctx => by_cases hc : minC ≤ ctx.confidence <;> simp [Except.map, hc]
      | ok P0 =>
        cases m with
        | none => simp [Except.map]
        | some ctx =>
          by_cases hc : minC ≤ ctx.confidence <;>
            simp [Except.map, hc, List.filter_cons]

theorem overallConfidence_filter_le (ms : List MatchContext) (p : MatchContext → Bool) :
    overallConfidence (ms.filter p) ≤ overallConfidence ms := by
  unfold overallConfidence
  dsimp only
  have hlen : (ms.filter p).length ≤ ms.length := List.length_filter_le _ _
  have hmax : ((ms.filter p).map fun m => m.confidence).foldl max 0 ≤
      (ms.map fun m => m.confidence).foldl max 0 := by
    apply foldl_max_le (Nat.zero_le _)
    intro x hx
    obtain ⟨mm, hmm, rfl⟩ := List.mem_map.mp hx
    exact mem_le_foldl_max (List.mem_map.mpr ⟨mm, List.mem_of_mem_filter hmm, rfl⟩) 0
  omega

/-- The per-pair match list of `buildResult` under a confidence-filtered pair
list is the confidence-filtered match list. -/
theorem buildResult_ms (P0 : List (List Char × MatchContext)) (m : Nat) (cid : List Char) :
    ((P0.filter (fun p => decide (m ≤ p.2.confidence))).filter
      (fun p => p.1 == cid)).map (fun p => p.2) =
      ((P0.filter (fun p => p.1 == cid)).map (fun p => p.2)).filter
        (fun mm => decide (m ≤ mm.confidence)) := by
  rw [filter_comm_pairs, List.filter_map]
  rfl

theorem buildResult_mono {contacts : List Contact}
    {P0 : List (List Char × MatchContext)} {m1 m2 : Nat} (h12 : m1 ≤ m2)
    (cid : List Char)
    (h : (buildResult contacts (P0.filter (fun p => decide (m2 ≤ p.2.confidence)))
      m2 cid).isSome = true) :
    (buildResult contacts (P0.filter (fun p => decide (m1 ≤ p.2.confidence)))
      m1 cid).isSome = true := by
  unfold buildResult at h ⊢
  cases hf : contacts.find? (fun c => c.id == cid) with
  | none => rw [hf] at h; simp at h
  | some contact =>
    rw [hf] at h
    dsimp only at h ⊢
    rw [buildResult_ms P0 m2 cid] at h
    rw [buildResult_ms P0 m1 cid]
    split at h
    · next hge =>
      rw [if_pos ?hle]
      · simp
      case hle =>
        rw [filter_conf_sub h12] at hge
        have hov := overallConfidence_filter_le
          (((P0.filter (fun p => p.1 == cid)).map (fun p => p.2)).filter
            (fun mm => decide (m1 ≤ mm.confidence)))
          (fun mm => decide (m2 ≤ mm.confidence))
        omega
    · simp at h

/-- C6: raising `min_confidence` never increases the number of returned
results, for `ContactMatcher::find_matches` and, on runs that complete, for
`FullTextSearchIndex::search`. -/
theorem c6_threshold_monotonicity (query : ContactQuery) (contacts : List Contact)
    (docs : List SearchableDocument) (ftQuery : List Char)
    (max_results m1 m2 : Nat) (h12 : m1 ≤ m2) (res1 res2 : List SearchResult)
    (h1 : search docs contacts ftQuery max_results m1 = Except.ok res1)
    (h2 : search docs contacts ftQuery max_results m2 = Except.ok res2) :
    (find_matches query contacts max_results m2).length ≤
      (find_matches query contacts max_results m1).length ∧
    res2.length ≤ res1.length := by
  constructor
  · unfold find_matches
    rw [List.length_take, List.length_take,
      (List.perm_insertionSort fmLe _).length_eq,
      (List.perm_insertionSort fmLe _).length_eq]
    exact min_le_min (le_refl _)
      (filterMap_length_mono (match_one_isSome_mono h12) contacts)
  · unfold search at h1 h2
    rw [collectMatches_filter] at h1 h2
    cases hb : collectMatches docs (rustLower ftQuery) 0 with
    | error e =>
      rw [hb] at h1
      simp [Except.map] at h1
    | ok P0 =>
      rw [hb] at h1 h2
      simp only [Except.map] at h1 h2
      have e1 := Except.ok.inj h1
      have e2 := Except.ok.inj h2
      subst e1
      subst e2
      rw [List.length_take, List.length_take,
        (List.perm_insertionSort sGE _).length_eq,
        (List.perm_insertionSort sGE _).length_eq]
      apply min_le_min (le_refl _)
      rw [length_filterMap_eq_filter, length_filterMap_eq_filter]
      apply List.Subperm.length_le
      apply List.subperm_of_subset
      · exact (List.nodup_dedup _).filter _
      · intro cid hcid
        rw [List.mem_filter] at hcid ⊢
        obtain ⟨hk2, hs2⟩ := hcid
        constructor
        · rw [List.mem_dedup] at hk2 ⊢
          obtain ⟨p, hp, rfl⟩ := List.mem_map.mp hk2
          have hp1 : p ∈ P0.filter (fun q => decide (m1 ≤ q.2.confidence)) := by
            rw [filter_pairs_sub h12] at hp
            exact List.mem_of_mem_filter hp
          exact List.mem_map.mpr ⟨p, hp1, rfl⟩
        · exact buildResult_mono h12 cid hs2

def c6Contact : Contact := ⟨"3".toList, "bob".toList, none, [], none, [], none, none, []⟩

def c6Docs : List SearchableDocument :=
  [⟨"3".toList, "bob".toList, SearchableField.name, "bob".toList, none⟩,
   ⟨"3".toList, "bob".toList, SearchableField.company, "bob co".toList, none⟩]

def c6Query : ContactQuery := ⟨some ("bob".toList), none, none, none, none⟩

def c6Res1 : List SearchResult :=
  [⟨c6Contact,
    [⟨SearchableField.name, "bob".toList, 95, none⟩,
     ⟨SearchableField.company, "bob co".toList, 52, none⟩], 100⟩]

def c6Res2 : List SearchResult :=
  [⟨c6Contact, [⟨SearchableField.name, "bob".toList, 95, none⟩], 95⟩]

/-- Witness for C6: thresholds 0 and 60 on the same dataset. -/
theorem c6_threshold_monotonicity_witness :
    search c6Docs [c6Contact] ("bob".toList) 10 0 = Except.ok c6Res1 ∧
    search c6Docs [c6Contact] ("bob".toList) 10 60 = Except.ok c6Res2 ∧
    (find_matches c6Query [c6Contact] 10 60).length ≤
      (find_matches c6Query [c6Contact] 10 0).length ∧
    c6Res2.length ≤ c6Res1.length :=
  ⟨rfl, rfl,
    (c6_threshold_monotonicity c6Query [c6Contact] c6Docs ("bob".toList) 10 0 60
      (by decide) c6Res1 c6Res2 rfl rfl).1,
    (c6_threshold_monotonicity c6Query [c6Contact] c6Docs ("bob".toList) 10 0 60
      (by decide) c6Res1 c6Res2 rfl rfl).2⟩

/-! ### Normalization-idempotence lemmas -/

theorem toLowerChar_toNat (c : Char) :
    (toLowerChar c).toNat =
      if 65 ≤ c.toNat ∧ c.toNat ≤ 90 then c.toNat + 32 else c.toNat := by
  unfold toLowerChar
  by_cases h : 'A' ≤ c ∧ c ≤ 'Z'
  · rw [if_pos h]
    have h1 : 65 ≤ c.toNat := h.1
    have h2 : c.toNat ≤ 90 := h.2
    rw [if_pos ⟨h1, h2⟩]
    have hv : (c.toNat + 32).isValidChar := Or.inl (by omega)
    rw [Char.ofNat, dif_pos hv]
    rfl
  · rw [if_neg h, if_neg (fun hc => h ⟨hc.1, hc.2⟩)]

theorem toLowerChar_idem (c : Char) : toLowerChar (toLowerChar c) = toLowerChar c := by
  apply Char.eq_of_val_eq
  apply UInt32.ext
  have h1 := toLowerChar_toNat c
  have h2 := toLowerChar_toNat (toLowerChar c)
  show (toLowerChar (toLowerChar c)).toNat = (toLowerChar c).toNat
  rw [h2, h1]
  by_cases hc : 65 ≤ c.toNat ∧ c.toNat ≤ 90
  · rw [if_pos hc, if_neg (by omega)]
  · rw [if_neg hc, if_neg hc]

theorem isWs_toLowerChar (c : Char) : isWs (toLowerChar c) = isWs c := by
  unfold isWs
  rw [toLowerChar_toNat]
  by_cases hc : 65 ≤ c.toNat ∧ c.toNat ≤ 90
  · rw [if_pos hc, decide_eq_decide]
    omega
  · rw [if_neg hc]

theorem rustLower_chars {s : List Char} {c : Char} (h : c ∈ rustLower s) :
    toLowerChar c = c := by
  obtain ⟨x, _, rfl⟩ := List.mem_map.mp h
  exact toLowerChar_idem x

theorem rustLower_eq_self {l : List Char} (h : ∀ c ∈ l, toLowerChar c = c) :
    rustLower l = l :=
  (List.map_congr_left h).trans (List.map_id l)

theorem rustLower_rustLower (s : List Char) : rustLower (rustLower s) = rustLower s :=
  rustLower_eq_self (fun _ hc => rustLower_chars hc)

theorem dropWhile_idem {α : Type} (p : α → Bool) (l : List α) :
    (l.dropWhile p).dropWhile p = l.dropWhile p := by
  induction l with
  | nil => rfl
  | cons a l ih =>
    by_cases h : p a
    · simp [List.dropWhile_cons, h, ih]
    · simp [List.dropWhile_cons, h]

theorem dropWhile_map_lower (p : Char → Bool) (hp : ∀ c, p (toLowerChar c) = p c)
    (l : List Char) :
    (rustLower l).dropWhile p = rustLower (l.dropWhile p) := by
  induction l with
  | nil => rfl
  | cons a l ih =>
    show ((toLowerChar a :: rustLower l).dropWhile p) = _
    by_cases h : p a
    · rw [List.dropWhile_cons_of_pos (by rw [hp]; exact h),
        List.dropWhile_cons_of_pos h]
      exact ih
    · rw [List.dropWhile_cons_of_neg (by rw [hp]; simpa using h),
        List.dropWhile_cons_of_neg (by simpa using h)]
      rfl

theorem rustLower_reverse (l : List Char) :
    rustLower l.reverse = (rustLower l).reverse := by
  unfold rustLower
  exact (List.map_reverse _ _)

theorem rustTrim_rustLower (s : List Char) :
    rustTrim (rustLower s) = rustLower (rustTrim s) := by
  unfold rustTrim
  rw [dropWhile_map_lower isWs isWs_toLowerChar s, ← rustLower_reverse,
    dropWhile_map_lower isWs isWs_toLowerChar, ← rustLower_reverse]

/-- The left-trim half of `rustTrim`. -/
def trimL (l : List Char) : List Char := l.dropWhile isWs

/-- The right-trim half of `rustTrim`. -/
def trimR (l : List Char) : List Char := (l.reverse.dropWhile isWs).reverse

theorem rustTrim_eq_trimR_trimL (s : List Char) : rustTrim s = trimR (trimL s) := rfl

theorem head?_dropWhile {α : Type} {p : α → Bool} {l : List α} {c : α}
    (h : (l.dropWhile p).head? = some c) : p c = false := by
  induction l with
  | nil => simp at h
  | cons a l ih =>
    rw [List.dropWhile_cons] at h
    split at h
    · exact ih h
    · next hpa =>
      simp only [List.head?_cons, Option.some.injEq] at h
      subst h
      simpa using hpa

theorem trimL_eq_self {l : List Char}
    (h : ∀ c, l.head? = some c → isWs c = false) : trimL l = l := by
  unfold trimL
  cases l with
  | nil => rfl
  | cons a l => exact List.dropWhile_cons_of_neg (by simp [h a rfl])

theorem trimR_isPrefix (l : List Char) : trimR l <+: l := by
  unfold trimR
  have hs : l.reverse.dropWhile isWs <:+ l.reverse := List.dropWhile_suffix isWs
  have hp := List.reverse_prefix.mpr hs
  simpa using hp

theorem trimR_idem (l : List Char) : trimR (trimR l) = trimR l := by
  unfold trimR
  rw [List.reverse_reverse, dropWhile_idem]

theorem rustTrim_idem (s : List Char) : rustTrim (rustTrim s) = rustTrim s := by
  rw [rustTrim_eq_trimR_trimL, rustTrim_eq_trimR_trimL]
  have htl : trimL (trimR (trimL s)) = trimR (trimL s) := by
    apply trimL_eq_self
    intro c hc
    obtain ⟨t, ht⟩ := trimR_isPrefix (trimL s)
    have hhead : (trimL s).head? = some c := by
      rw [← ht]
      cases hx : trimR (trimL s) with
      | nil => rw [hx] at hc; simp at hc
      | cons b r =>
        rw [hx] at hc
        simp only [List.head?_cons, Option.some.injEq] at hc
        subst hc
        simp
    exact head?_dropWhile hhead
  rw [htl, trimR_idem]

theorem normalize_email_idem (s : List Char) :
    normalize_email (normalize_email s) = normalize_email s := by
  unfold normalize_email
  rw [rustTrim_rustLower, rustLower_rustLower, rustTrim_idem]

theorem normalize_phone_idem (s : List Char) :
    normalize_phone (normalize_phone s) = normalize_phone s := by
  unfold normalize_phone
  dsimp only
  by_cases h : 10 < (s.filter isAsciiDigit).length
  · rw [if_pos h]
    have hall : ∀ c ∈ (s.filter isAsciiDigit).drop ((s.filter isAsciiDigit).length - 10),
        isAsciiDigit c = true :=
      fun c hc => List.of_mem_filter (List.mem_of_mem_drop hc)
    rw [List.filter_eq_self.mpr hall]
    have hlen : ((s.filter isAsciiDigit).drop
        ((s.filter isAsciiDigit).length - 10)).length = 10 := by
      rw [List.length_drop]
      omega
    rw [if_neg (by omega)]
  · rw [if_neg h]
    have hall : ∀ c ∈ s.filter isAsciiDigit, isAsciiDigit c = true :=
      fun c hc => List.of_mem_filter hc
    rw [List.filter_eq_self.mpr hall, if_neg h]

/-! ### `splitWs` structure lemmas -/

theorem splitWs_nil : splitWs [] = [] := rfl

theorem splitWs_cons_ws {c : Char} (t : List Char) (h : isWs c = true) :
    splitWs (c :: t) = splitWs t := by
  simp [splitWs, splitWsAux, h]

theorem splitWsAux_spec (rest : List Char) :
    ∀ acc : List Char, acc ≠ [] →
      splitWsAux rest acc =
        (acc.reverse ++ rest.takeWhile (fun x => !isWs x)) ::
          splitWs (rest.dropWhile (fun x => !isWs x)) := by
  induction rest with
  | nil =>
    intro acc hacc
    simp [splitWsAux, hacc, splitWs]
  | cons x t ih =>
    intro acc hacc
    by_cases hx : isWs x
    · have e1 : splitWsAux (x :: t) acc = acc.reverse :: splitWsAux t [] := by
        simp [splitWsAux, hx, hacc]
      rw [e1, List.takeWhile_cons_of_neg (by simp [hx]),
        List.dropWhile_cons_of_neg (by simp [hx])]
      simp only [List.append_nil]
      rw [show splitWs (x :: t) = splitWs t from splitWs_cons_ws t hx]
      rfl
    · have e1 : splitWsAux (x :: t) acc = splitWsAux t (x :: acc) := by
        simp [splitWsAux, hx]
      rw [e1, ih (x :: acc) (by simp),
        List.takeWhile_cons_of_pos (by simp [hx]),
        List.dropWhile_cons_of_pos (by simp [hx])]
      simp

theorem splitWs_cons_nws {c : Char} (t : List Char) (h : isWs c = false) :
    splitWs (c :: t) =
      (c :: t.takeWhile (fun x => !isWs x)) ::
        splitWs (t.dropWhile (fun x => !isWs x)) := by
  have e1 : splitWs (c :: t) = splitWsAux t [c] := by
    simp [splitWs, splitWsAux, h]
  rw [e1, splitWsAux_spec t [c] (by simp)]
  rfl

/-- Every word produced by `splitWs` is nonempty and whitespace-free. -/
theorem splitWs_words {s : List Char} :
    ∀ w ∈ splitWs s, w ≠ [] ∧ ∀ c ∈ w, isWs c = false := by
  generalize hn : s.length = n
  induction n using Nat.strong_induction_on generalizing s with
  | _ n ih =>
    cases s with
    | nil => simp [splitWs_nil]
    | cons c t =>
      by_cases hc : isWs c
      · rw [splitWs_cons_ws t hc]
        exact ih t.length (by simp [← hn]) rfl
      · rw [splitWs_cons_nws t (by simpa using hc)]
        intro w hw
        rcases List.mem_cons.mp hw with rfl | hw
        · refine ⟨by simp, ?_⟩
          intro x hx
          rcases List.mem_cons.mp hx with rfl | hx
          · simpa using hc
          · simpa using List.mem_takeWhile_imp hx
        · refine ih (t.dropWhile (fun x => !isWs x)).length ?_ rfl w hw
          have := (List.dropWhile_sublist (l := t) (fun x => !isWs x)).length_le
          simp only [← hn, List.length_cons]
          omega

/-- Every character of a `splitWs` word comes from the split string. -/
theorem splitWs_chars {s : List Char} :
    ∀ w ∈ splitWs s, ∀ c ∈ w, c ∈ s := by
  generalize hn : s.length = n
  induction n using Nat.strong_induction_on generalizing s with
  | _ n ih =>
    cases s with
    | nil => simp [splitWs_nil]
    | cons c t =>
      by_cases hc : isWs c
      · rw [splitWs_cons_ws t hc]
        intro w hw x hx
        exact List.mem_cons_of_mem c (ih t.length (by simp [← hn]) rfl w hw x hx)
      · rw [splitWs_cons_nws t (by simpa using hc)]
        intro w hw x hx
        rcases List.mem_cons.mp hw with rfl | hw
        · rcases List.mem_cons.mp hx with rfl | hx
          · simp
          · exact List.mem_cons_of_mem c ((List.takeWhile_sublist _).subset hx)
        · refine List.mem_cons_of_mem c ?_
          refine (List.dropWhile_sublist (l := t) (fun x => !isWs x)).subset ?_
          refine ih (t.dropWhile (fun x => !isWs x)).length ?_ rfl w hw x hx
          have := (List.dropWhile_sublist (l := t) (fun x => !isWs x)).length_le
          simp only [← hn, List.length_cons]
          omega

theorem takeWhile_eq_self_of_all {α : Type} {p : α → Bool} {l : List α}
    (h : ∀ a ∈ l, p a = true) : l.takeWhile p = l := by
  induction l with
  | nil => rfl
  | cons a l ih =>
    rw [List.takeWhile_cons_of_pos (h a (by simp))]
    rw [ih (fun a ha => h a (by simp [ha]))]

theorem dropWhile_eq_nil_of_all {α : Type} {p : α → Bool} {l : List α}
    (h : ∀ a ∈ l, p a = true) : l.dropWhile p = [] := by
  induction l with
  | nil => rfl
  | cons a l ih =>
    rw [List.dropWhile_cons_of_pos (h a (by simp))]
    exact ih (fun a ha => h a (by simp [ha]))

theorem takeWhile_append_stop {α : Type} {p : α → Bool} {w : List α} {x : α}
    (t : List α) (hw : ∀ a ∈ w, p a = true) (hx : p x = false) :
    (w ++ x :: t).takeWhile p = w := by
  induction w with
  | nil => simpa using List.takeWhile_cons_of_neg (l := t) (by simp [hx])
  | cons a w ih =>
    rw [List.cons_append, List.takeWhile_cons_of_pos (hw a (by simp))]
    rw [ih (fun a ha => hw a (by simp [ha]))]

theorem dropWhile_append_stop {α : Type} {p : α → Bool} {w : List α} {x : α}
    (t : List α) (hw : ∀ a ∈ w, p a = true) (hx : p x = false) :
    (w ++ x :: t).dropWhile p = x :: t := by
  induction w with
  | nil => simpa using List.dropWhile_cons_of_neg (l := t) (by simp [hx])
  | cons a w ih =>
    rw [List.cons_append, List.dropWhile_cons_of_pos (hw a (by simp))]
    exact ih (fun a ha => hw a (by simp [ha]))

theorem isWs_space : isWs ' ' = true := by decide

/-- Splitting one clean word back off a `' '`-separated join. -/
theorem splitWs_word_append {w t : List Char} (hw : w ≠ [])
    (hclean : ∀ c ∈ w, isWs c = false) :
    splitWs (w ++ ' ' :: t) = w :: splitWs t := by
  cases w with
  | nil => exact absurd rfl hw
  | cons c cs =>
    rw [List.cons_append, splitWs_cons_nws _ (hclean c (by simp))]
    rw [takeWhile_append_stop t (fun a ha => by simp [hclean a (by simp [ha])])
      (by simp [isWs_space])]
    rw [dropWhile_append_stop t (fun a ha => by simp [hclean a (by simp [ha])])
      (by simp [isWs_space])]
    rw [splitWs_cons_ws t isWs_space]

/-- Splitting a single clean word. -/
theorem splitWs_single {w : List Char} (hw : w ≠ [])
    (hclean : ∀ c ∈ w, isWs c = false) : splitWs w = [w] := by
  cases w with
  | nil => exact absurd rfl hw
  | cons c cs =>
    rw [splitWs_cons_nws _ (hclean c (by simp))]
    rw [takeWhile_eq_self_of_all (fun a ha => by simp [hclean a (by simp [ha])])]
    rw [dropWhile_eq_nil_of_all (fun a ha => by simp [hclean a (by simp [ha])])]
    rfl

/-- `splitWs` recovers the words from their `" "`-join. -/
theorem splitWs_joinWords {ws : List (List Char)}
    (h : ∀ w ∈ ws, w ≠ [] ∧ ∀ c ∈ w, isWs c = false) :
    splitWs (joinWords ws) = ws := by
  induction ws with
  | nil => rfl
  | cons w rest ih =>
    cases rest with
    | nil =>
      show splitWs (joinWords [w]) = [w]
      have hw := h w (by simp)
      exact splitWs_single hw.1 hw.2
    | cons w' rest' =>
      show splitWs (w ++ ' ' :: joinWords (w' :: rest')) = w :: w' :: rest'
      have hw := h w (by simp)
      rw [splitWs_word_append hw.1 hw.2]
      rw [ih (fun v hv => h v (by simp [hv]))]

theorem mem_of_head?_eq {l : List Char} {c : Char} (h : l.head? = some c) : c ∈ l := by
  cases l with
  | nil => simp at h
  | cons a t =>
    simp only [List.head?_cons, Option.some.injEq] at h
    subst h
    simp

theorem joinWords_ne_nil {w : List Char} {rest : List (List Char)} (hw : w ≠ []) :
    joinWords (w :: rest) ≠ [] := by
  cases rest with
  | nil => simpa [joinWords] using hw
  | cons w' rest' =>
    show w ++ ' ' :: joinWords (w' :: rest') ≠ []
    simp

theorem mem_joinWords : ∀ {ws : List (List Char)} {c : Char},
    c ∈ joinWords ws → c = ' ' ∨ ∃ w ∈ ws, c ∈ w := by
  intro ws
  induction ws with
  | nil => intro c h; simp [joinWords] at h
  | cons w rest ih =>
    intro c h
    cases rest with
    | nil => exact Or.inr ⟨w, by simp, by simpa [joinWords] using h⟩
    | cons w' rest' =>
      rw [show joinWords (w :: w' :: rest') = w ++ ' ' :: joinWords (w' :: rest') from rfl] at h
      rcases List.mem_append.mp h with hw | hw
      · exact Or.inr ⟨w, by simp, hw⟩
      · rcases List.mem_cons.mp hw with rfl | hw
        · exact Or.inl rfl
        · rcases ih hw with h' | ⟨v, hv, hc⟩
          · exact Or.inl h'
          · exact Or.inr ⟨v, List.mem_cons_of_mem w hv, hc⟩

theorem joinWords_head? {ws : List (List Char)} {c : Char}
    (hws : ∀ w ∈ ws, w ≠ []) (h : (joinWords ws).head? = some c) :
    ∃ w ∈ ws, w.head? = some c := by
  cases ws with
  | nil => simp [joinWords] at h
  | cons w rest =>
    cases rest with
    | nil => exact ⟨w, by simp, by simpa [joinWords] using h⟩
    | cons w' rest' =>
      rw [show joinWords (w :: w' :: rest') = w ++ ' ' :: joinWords (w' :: rest') from rfl,
        List.head?_append] at h
      cases hwh : w.head? with
      | none =>
        have hw : w ≠ [] := hws w (by simp)
        cases w with
        | nil => exact absurd rfl hw
        | cons a t => simp at hwh
      | some d =>
        rw [hwh] at h
        have hd : d = c := by simpa [Option.or] using h
        exact ⟨w, by simp, by rw [hwh, hd]⟩

theorem joinWords_getLast? : ∀ {ws : List (List Char)} {c : Char},
    (∀ w ∈ ws, w ≠ []) → (joinWords ws).getLast? = some c →
    ∃ w ∈ ws, w.getLast? = some c := by
  intro ws
  induction ws with
  | nil => intro c _ h; simp [joinWords] at h
  | cons w rest ih =>
    intro c hws h
    cases rest with
    | nil => exact ⟨w, by simp, by simpa [joinWords] using h⟩
    | cons w' rest' =>
      rw [show joinWords (w :: w' :: rest') = w ++ ' ' :: joinWords (w' :: rest') from rfl,
        List.getLast?_append] at h
      obtain ⟨a, l, hjw⟩ : ∃ a l, joinWords (w' :: rest') = a :: l := by
        cases hjw : joinWords (w' :: rest') with
        | nil => exact absurd hjw (joinWords_ne_nil (hws w' (by simp)))
        | cons a l => exact ⟨a, l, rfl⟩
      rw [hjw, List.getLast?_cons_cons] at h
      cases hgl : (a :: l).getLast? with
      | none => simp at hgl
      | some d =>
        rw [hgl] at h
        replace h : d = c := by simpa [Option.or] using h
        subst h
        obtain ⟨v, hv, hvl⟩ := ih (fun x hx => hws x (List.mem_cons_of_mem w hx))
          (by rw [hjw]; exact hgl)
        exact ⟨v, List.mem_cons_of_mem w hv, hvl⟩

theorem rustTrim_eq_self {l : List Char}
    (hh : ∀ c, l.head? = some c → isWs c = false)
    (hl : ∀ c, l.getLast? = some c → isWs c = false) : rustTrim l = l := by
  rw [rustTrim_eq_trimR_trimL, trimL_eq_self hh]
  unfold trimR
  have h2 : l.reverse.dropWhile isWs = l.reverse := by
    cases hr : l.reverse with
    | nil => rfl
    | cons a r =>
      apply List.dropWhile_cons_of_neg
      have ha : l.getLast? = some a := by
        rw [← List.head?_reverse, hr]
        rfl
      simp [hl a ha]
  rw [h2, List.reverse_reverse]

theorem toLowerChar_space : toLowerChar ' ' = ' ' := by decide

theorem normalize_name_idem (s : List Char) :
    normalize_name (normalize_name s) = normalize_name s := by
  unfold normalize_name
  have hwords := splitWs_words (s := rustLower (rustTrim s))
  have hne : ∀ w ∈ splitWs (rustLower (rustTrim s)), w ≠ [] :=
    fun w hw => (hwords w hw).1
  have htrim : rustTrim (joinWords (splitWs (rustLower (rustTrim s)))) =
      joinWords (splitWs (rustLower (rustTrim s))) := by
    apply rustTrim_eq_self
    · intro c hc
      obtain ⟨w, hw, hwh⟩ := joinWords_head? hne hc
      exact (hwords w hw).2 c (mem_of_head?_eq hwh)
    · intro c hc
      obtain ⟨w, hw, hwl⟩ := joinWords_getLast? hne hc
      exact (hwords w hw).2 c (List.mem_of_getLast?_eq_some hwl)
  have hlow : rustLower (joinWords (splitWs (rustLower (rustTrim s)))) =
      joinWords (splitWs (rustLower (rustTrim s))) := by
    apply rustLower_eq_self
    intro c hc
    rcases mem_joinWords hc with rfl | ⟨w, hw, hcw⟩
    · exact toLowerChar_space
    · exact rustLower_chars (splitWs_chars w hw c hcw)
  rw [htrim, hlow, splitWs_joinWords hwords]

theorem stripPrefixAllFuel_eq_self {pat s : List Char}
    (h : isPrefixList pat s = false) :
    ∀ fuel, stripPrefixAllFuel pat fuel s = s
  | 0 => rfl
  | fuel + 1 => by
    unfold stripPrefixAllFuel
    rw [if_neg (by simp [h])]

theorem stripPrefixAll_eq_self {pat s : List Char}
    (h : isPrefixList pat s = false) : stripPrefixAll pat s = s :=
  stripPrefixAllFuel_eq_self h _

theorem stripPrefixAllFuel_subset (pat : List Char) :
    ∀ (fuel : Nat) (s : List Char), stripPrefixAllFuel pat fuel s ⊆ s
  | 0, _ => fun _ h => h
  | fuel + 1, s => by
    unfold stripPrefixAllFuel
    split
    · exact fun c hc =>
        List.drop_subset _ s (stripPrefixAllFuel_subset pat fuel _ hc)
    · exact fun _ h => h

theorem stripSuffixAllSlash_subset (s : List Char) : stripSuffixAllSlash s ⊆ s := by
  intro c hc
  unfold stripSuffixAllSlash at hc
  rw [List.mem_reverse] at hc
  have := List.dropWhile_subset _ hc
  rwa [List.mem_reverse] at this

theorem stripSuffixAllSlash_idem (s : List Char) :
    stripSuffixAllSlash (stripSuffixAllSlash s) = stripSuffixAllSlash s := by
  unfold stripSuffixAllSlash
  rw [List.reverse_reverse, dropWhile_idem]

theorem normalize_url_lower_fixed (u : List Char) :
    rustLower (normalize_url u) = normalize_url u := by
  apply rustLower_eq_self
  intro c hc
  unfold normalize_url at hc
  have h1 := stripSuffixAllSlash_subset _ hc
  have h2 := stripPrefixAllFuel_subset _ _ _ h1
  have h3 := stripPrefixAllFuel_subset _ _ _ h2
  have h4 := stripPrefixAllFuel_subset _ _ _ h3
  exact rustLower_chars h4

/-- Counterexample to C5: `normalize_url` is not idempotent — stripping
`http://` can expose a fresh `https://` prefix that only a second pass
removes: `"http://https://a"` normalizes to `"https://a"`, which normalizes
again to `"a"`. -/
theorem c5_normalize_idempotent_cex :
    normalize_url (normalize_url ("http://https://a".toList)) ≠
      normalize_url ("http://https://a".toList) := by decide

/-- C5 (amended): `normalize_email`, `normalize_phone` and `normalize_name`
are idempotent on every input; `normalize_url` is idempotent only on inputs
whose normal form is already trimmed and carries no further `https://`,
`http://` or `www.` prefix (stripping one scheme layer can expose another,
and stripping can expose surrounding whitespace). -/
theorem c5_normalization_idempotence_amended (s u : List Char)
    (hu1 : rustTrim (normalize_url u) = normalize_url u)
    (hu2 : isPrefixList ("https://".toList) (normalize_url u) = false)
    (hu3 : isPrefixList ("http://".toList) (normalize_url u) = false)
    (hu4 : isPrefixList ("www.".toList) (normalize_url u) = false) :
    normalize_email (normalize_email s) = normalize_email s ∧
    normalize_phone (normalize_phone s) = normalize_phone s ∧
    normalize_name (normalize_name s) = normalize_name s ∧
    normalize_url (normalize_url u) = normalize_url u := by
  refine ⟨normalize_email_idem s, normalize_phone_idem s, normalize_name_idem s, ?_⟩
  show stripSuffixAllSlash (stripPrefixAll ("www.".toList)
    (stripPrefixAll ("http://".toList)
      (stripPrefixAll ("https://".toList)
        (rustLower (rustTrim (normalize_url u)))))) = normalize_url u
  rw [hu1, normalize_url_lower_fixed, stripPrefixAll_eq_self hu2,
    stripPrefixAll_eq_self hu3, stripPrefixAll_eq_self hu4]
  exact stripSuffixAllSlash_idem _

/-- Witness for C5 (amended) at `s = " A b "`, `u = "https://X.com/"`. -/
theorem c5_normalization_idempotence_amended_witness :
    normalize_email (normalize_email (" A b ".toList)) = normalize_email (" A b ".toList) ∧
    normalize_phone (normalize_phone (" A b ".toList)) = normalize_phone (" A b ".toList) ∧
    normalize_name (normalize_name (" A b ".toList)) = normalize_name (" A b ".toList) ∧
    normalize_url (normalize_url ("https://X.com/".toList)) =
      normalize_url ("https://X.com/".toList) :=
  c5_normalization_idempotence_amended (" A b ".toList) ("https://X.com/".toList)
    (by decide) (by decide) (by decide) (by decide)

/-! ### Snippet lemmas (ASCII byte arithmetic) -/

theorem utf8Size_ascii {c : Char} (h : c.toNat < 128) : utf8Size c = 1 := by
  unfold utf8Size
  rw [if_pos (by omega)]

theorem byteLen_ascii {s : List Char} (h : ∀ c ∈ s, c.toNat < 128) :
    byteLen s = s.length := by
  induction s with
  | nil => rfl
  | cons c rest ih =>
    rw [byteLen_cons, utf8Size_ascii (h c (by simp)), ih (fun x hx => h x (by simp [hx]))]
    simp [Nat.add_comm]

theorem isPrefixList_subset {p s : List Char} (h : isPrefixList p s = true) : p ⊆ s := by
  induction p generalizing s with
  | nil => simp
  | cons a p ih =>
    cases s with
    | nil => simp [isPrefixList] at h
    | cons b s =>
      simp only [isPrefixList, Bool.and_eq_true, beq_iff_eq] at h
      intro x hx
      rcases List.mem_cons.mp hx with rfl | hx
      · simp [h.1]
      · exact List.mem_cons_of_mem b (ih h.2 hx)

theorem containsSub_subset {n h : List Char} (hc : containsSub n h = true) : n ⊆ h := by
  induction h with
  | nil =>
    unfold containsSub at hc
    split at hc
    · exact isPrefixList_subset (by assumption)
    · simp at hc
  | cons c rest ih =>
    unfold containsSub at hc
    split at hc
    · exact isPrefixList_subset (by assumption)
    · exact fun x hx => List.mem_cons_of_mem c (ih hc hx)

theorem toLowerChar_ascii {c : Char} (h : c.toNat < 128) :
    (toLowerChar c).toNat < 128 := by
  rw [toLowerChar_toNat]
  split <;> omega

theorem containsSub_byteFind {n h : List Char} (hc : containsSub n h = true) :
    ∃ i, byteFind h n = some i := by
  induction h with
  | nil =>
    unfold containsSub at hc
    split at hc
    · exact ⟨0, by unfold byteFind; rw [if_pos (by assumption)]⟩
    · simp at hc
  | cons c rest ih =>
    unfold containsSub at hc
    unfold byteFind
    split at hc
    · next hp => exact ⟨0, by rw [if_pos hp]⟩
    · next hp =>
      obtain ⟨j, hj⟩ := ih hc
      refine ⟨utf8Size c + j, ?_⟩
      rw [if_neg hp]
      show (byteFind rest n).map (fun n => utf8Size c + n) = some (utf8Size c + j)
      rw [hj]
      rfl

theorem byteFind_spec {h n : List Char} {i : Nat}
    (hascii : ∀ c ∈ h, c.toNat < 128) (hf : byteFind h n = some i) :
    i + n.length ≤ h.length ∧ isPrefixList n (h.drop i) = true := by
  induction h generalizing i with
  | nil =>
    unfold byteFind at hf
    split at hf
    · next hp =>
      cases n with
      | nil =>
        have : i = 0 := by simpa using hf.symm
        subst this
        simp [isPrefixList]
      | cons a t => simp [isPrefixList] at hp
    · simp at hf
  | cons c rest ih =>
    unfold byteFind at hf
    split at hf
    · next hp =>
      have : i = 0 := by simpa using hf.symm
      subst this
      refine ⟨by simpa using isPrefixList_length hp, by simpa using hp⟩
    · next hp =>
      rcases Option.map_eq_some'.mp hf with ⟨j, hj, rfl⟩
      have hrec := ih (fun x hx => hascii x (by simp [hx])) hj
      rw [utf8Size_ascii (hascii c (by simp))]
      constructor
      · simp only [List.length_cons]
        omega
      · have : (1 + j) = j + 1 := by omega
        rw [this, List.drop_succ_cons]
        exact hrec.2

theorem byteDrop_ascii {s : List Char} {n : Nat}
    (hascii : ∀ c ∈ s, c.toNat < 128) (hn : n ≤ s.length) :
    byteDrop s n = some (s.drop n) := by
  induction s generalizing n with
  | nil =>
    cases n with
    | zero => rfl
    | succ m => simp at hn
  | cons c rest ih =>
    cases n with
    | zero => rfl
    | succ m =>
      unfold byteDrop
      have hsz : utf8Size c = 1 := utf8Size_ascii (hascii c (by simp))
      rw [if_pos (by omega)]
      rw [hsz]
      have : m + 1 - 1 = m := by omega
      rw [this, List.drop_succ_cons]
      exact ih (fun x hx => hascii x (by simp [hx])) (by simpa using hn)

theorem byteTake_ascii {s : List Char} {n : Nat}
    (hascii : ∀ c ∈ s, c.toNat < 128) (hn : n ≤ s.length) :
    byteTake s n = some (s.take n) := by
  induction s generalizing n with
  | nil =>
    cases n with
    | zero => rfl
    | succ m => simp at hn
  | cons c rest ih =>
    cases n with
    | zero => rfl
    | succ m =>
      unfold byteTake
      have hsz : utf8Size c = 1 := utf8Size_ascii (hascii c (by simp))
      rw [if_pos (by omega)]
      rw [hsz]
      have : m + 1 - 1 = m := by omega
      rw [this]
      rw [ih (fun x hx => hascii x (by simp [hx])) (by simpa using hn)]
      rfl

theorem byteSlice_ascii {s : List Char} {a b : Nat}
    (hascii : ∀ c ∈ s, c.toNat < 128) (hab : a ≤ b) (hb : b ≤ s.length) :
    byteSlice s a b = some ((s.drop a).take (b - a)) := by
  unfold byteSlice
  rw [if_neg (by omega)]
  rw [byteDrop_ascii hascii (by omega)]
  have : byteTake (s.drop a) (b - a) = some ((s.drop a).take (b - a)) := by
    apply byteTake_ascii (fun x hx => hascii x (List.mem_of_mem_drop hx))
    rw [List.length_drop]
    omega
  exact this

theorem isPrefixList_self_append (x v : List Char) : isPrefixList x (x ++ v) = true := by
  induction x with
  | nil => rfl
  | cons a t ih => simpa [isPrefixList] using ih

theorem containsSub_of_append (x : List Char) :
    ∀ (u v : List Char), containsSub x (u ++ x ++ v) = true := by
  intro u
  induction u with
  | nil =>
    intro v
    unfold containsSub
    rw [List.nil_append, if_pos (isPrefixList_self_append x v)]
  | cons a u ih =>
    intro v
    unfold containsSub
    split
    · rfl
    · exact ih v

/-- Any `drop`/`take` slice of a string occurs in the string. -/
theorem containsSub_slice (l : List Char) (i k : Nat) :
    containsSub ((l.drop i).take k) l = true := by
  have h := containsSub_of_append ((l.drop i).take k) (l.take i) ((l.drop i).drop k)
  have heq : l.take i ++ (l.drop i).take k ++ (l.drop i).drop k = l := by
    rw [List.append_assoc, List.take_append_drop, List.take_append_drop]
  rwa [heq] at h

/-- Unfolding of `generate_snippet` once the position and the slice are
known. -/
theorem generate_snippet_eq {original content_lower query : List Char} {pos : Nat}
    {core : List Char} (hsp : snippetPos content_lower query = pos)
    (hslice : byteSlice original (pos - contextChars)
      (min (pos + byteLen query + contextChars) (byteLen original)) = some core) :
    generate_snippet original content_lower query =
      (if maxSnippetLength <
          byteLen (if min (pos + byteLen query + contextChars) (byteLen original) <
              byteLen original then
            (if 0 < pos - contextChars then ellipsis ++ core else core) ++ ellipsis
          else (if 0 < pos - contextChars then ellipsis ++ core else core)) then
        (byteTruncate (if min (pos + byteLen query + contextChars) (byteLen original) <
              byteLen original then
            (if 0 < pos - contextChars then ellipsis ++ core else core) ++ ellipsis
          else (if 0 < pos - contextChars then ellipsis ++ core else core))
          (maxSnippetLength - 3)).map (fun t => t ++ ellipsis)
      else some (if min (pos + byteLen query + contextChars) (byteLen original) <
              byteLen original then
            (if 0 < pos - contextChars then ellipsis ++ core else core) ++ ellipsis
          else (if 0 < pos - contextChars then ellipsis ++ core else core))) := by
  unfold generate_snippet
  rw [hsp]
  dsimp only
  rw [hslice]

theorem ellipsis_ascii : ∀ c ∈ ellipsis, c.toNat < 128 := by decide

/-- C7 (amended): for ASCII content, when the query occurs in the lowercased
content and is at most 94 bytes long, snippet generation succeeds, the
snippet is the matched window with optional `"..."` at either end, the
original (non-lowercased) matched span occurs in the window part, and the
snippet is at most 150 bytes long.  (The 94-byte bound is forced by the
truncation counterexample; ASCII is forced by the panic on multi-byte
text.) -/
theorem c7_snippet_containment_amended (content query : List Char)
    (hascii : ∀ c ∈ content, c.toNat < 128)
    (hsub : containsSub query (rustLower content) = true)
    (hqlen : query.length ≤ 94) :
    ∃ (pos : Nat) (snip mid pre suf : List Char),
      byteFind (rustLower content) query = some pos ∧
      generate_snippet content (rustLower content) query = some snip ∧
      snip = pre ++ mid ++ suf ∧
      (pre = [] ∨ pre = ellipsis) ∧
      (suf = [] ∨ suf = ellipsis) ∧
      containsSub ((content.drop pos).take query.length) mid = true ∧
      byteLen snip ≤ maxSnippetLength := by
  have hlcl : ∀ c ∈ rustLower content, c.toNat < 128 := by
    intro c hc
    obtain ⟨x, hx, rfl⟩ := List.mem_map.mp hc
    exact toLowerChar_ascii (hascii x hx)
  have hclen : (rustLower content).length = content.length := List.length_map _ _
  have hqascii : ∀ c ∈ query, c.toNat < 128 :=
    fun c hc => hlcl c (containsSub_subset hsub hc)
  obtain ⟨pos, hpos⟩ := containsSub_byteFind hsub
  have hspec := byteFind_spec hlcl hpos
  have hposlen : pos + query.length ≤ content.length := by
    have := hspec.1
    omega
  have hbq : byteLen query = query.length := byteLen_ascii hqascii
  have hbc : byteLen content = content.length := byteLen_ascii hascii
  have hsp : snippetPos (rustLower content) query = pos := by
    unfold snippetPos
    rw [hpos]
  have hstartle : pos - contextChars ≤
      min (pos + byteLen query + contextChars) (byteLen content) := by
    rw [hbq, hbc]
    unfold contextChars
    omega
  have hstople : min (pos + byteLen query + contextChars) (byteLen content) ≤
      content.length := by
    rw [hbc]
    omega
  have hslice : byteSlice content (pos - contextChars)
      (min (pos + byteLen query + contextChars) (byteLen content)) =
      some ((content.drop (pos - contextChars)).take
        (min (pos + byteLen query + contextChars) (byteLen content) -
          (pos - contextChars))) :=
    byteSlice_ascii hascii hstartle hstople
  have hgs := generate_snippet_eq hsp hslice
  -- Abbreviations (plain `have`-style equalities keep terms readable).
  generalize hcore : (content.drop (pos - contextChars)).take
    (min (pos + byteLen query + contextChars) (byteLen content) -
      (pos - contextChars)) = core at hslice hgs
  -- Facts about the core window.
  have hcore_ascii : ∀ c ∈ core, c.toNat < 128 := by
    intro c hc
    rw [← hcore] at hc
    exact hascii c (List.mem_of_mem_drop ((List.take_sublist _ _).subset hc))
  have hoff : pos - (pos - contextChars) ≤ contextChars := by omega
  have hqstop : query.length ≤
      min (pos + byteLen query + contextChars) (byteLen content) - pos := by
    rw [hbq, hbc]
    unfold contextChars
    omega
  have hspan : (content.drop pos).take query.length =
      (core.drop (pos - (pos - contextChars))).take query.length := by
    rw [← hcore, List.drop_take, List.drop_drop]
    have h1 : pos - contextChars + (pos - (pos - contextChars)) = pos := by omega
    rw [h1, List.take_take]
    congr 1
    have h2 : min (pos + byteLen query + contextChars) (byteLen content) -
        (pos - contextChars) - (pos - (pos - contextChars)) =
        min (pos + byteLen query + contextChars) (byteLen content) - pos := by
      omega
    rw [h2]
    omega
  -- The optional ellipses around the window.
  obtain ⟨preL, hpre_or, hpreL, hpreLen⟩ :
      ∃ p, (p = [] ∨ p = ellipsis) ∧
        (if 0 < pos - contextChars then ellipsis ++ core else core) = p ++ core ∧
        p.length ≤ 3 := by
    by_cases hst : 0 < pos - contextChars
    · exact ⟨ellipsis, Or.inr rfl, by rw [if_pos hst], by decide⟩
    · exact ⟨[], Or.inl rfl, by rw [if_neg hst]; rfl, by decide⟩
  obtain ⟨sufL, hsuf_or, hsufL, hsufLen⟩ :
      ∃ q, (q = [] ∨ q = ellipsis) ∧
        (if min (pos + byteLen query + contextChars) (byteLen content) <
            byteLen content then
          (if 0 < pos - contextChars then ellipsis ++ core else core) ++ ellipsis
        else (if 0 < pos - contextChars then ellipsis ++ core else core)) =
          (preL ++ core) ++ q ∧ q.length ≤ 3 := by
    by_cases hstop : min (pos + byteLen query + contextChars) (byteLen content) <
        byteLen content
    · exact ⟨ellipsis, Or.inr rfl, by rw [if_pos hstop, hpreL], by decide⟩
    · exact ⟨[], Or.inl rfl, by rw [if_neg hstop, hpreL, List.append_nil], by decide⟩
  rw [hsufL] at hgs
  have hsn_ascii : ∀ c ∈ (preL ++ core) ++ sufL, c.toNat < 128 := by
    intro c hc
    rcases List.mem_append.mp hc with hc | hc
    · rcases List.mem_append.mp hc with hc | hc
      · rcases hpre_or with rfl | rfl
        · simp at hc
        · exact ellipsis_ascii c hc
      · exact hcore_ascii c hc
    · rcases hsuf_or with rfl | rfl
      · simp at hc
      · exact ellipsis_ascii c hc
  have hsn_blen : byteLen ((preL ++ core) ++ sufL) = ((preL ++ core) ++ sufL).length :=
    byteLen_ascii hsn_ascii
  by_cases htrunc : maxSnippetLength < byteLen ((preL ++ core) ++ sufL)
  · -- Truncation: keep the first 147 bytes and append `"..."`.
    rw [if_pos htrunc] at hgs
    have hlong : 150 < ((preL ++ core) ++ sufL).length := by
      rw [← hsn_blen]
      exact htrunc
    have htr : byteTruncate ((preL ++ core) ++ sufL) (maxSnippetLength - 3) =
        some (((preL ++ core) ++ sufL).take 147) := by
      unfold byteTruncate
      rw [if_neg (by unfold maxSnippetLength; omega)]
      exact byteTake_ascii hsn_ascii (by omega)
    rw [htr] at hgs
    have hcorelen : 147 ≤ (preL ++ core).length := by
      have := List.length_append (preL ++ core) sufL
      omega
    have htake1 : ((preL ++ core) ++ sufL).take 147 = (preL ++ core).take 147 := by
      rw [List.take_append_eq_append_take]
      rw [show 147 - (preL ++ core).length = 0 by omega]
      simp
    have htake2 : (preL ++ core).take 147 = preL ++ core.take (147 - preL.length) := by
      rw [List.take_append_eq_append_take]
      rw [List.take_of_length_le (by omega)]
    refine ⟨pos, ((preL ++ core) ++ sufL).take 147 ++ ellipsis,
      core.take (147 - preL.length), preL, ellipsis, hpos, ?_, ?_, hpre_or, Or.inr rfl,
      ?_, ?_⟩
    · rw [hgs]
      rfl
    · rw [htake1, htake2, List.append_assoc]
    · -- the span sits inside the kept part of the window
      have hspan2 : (content.drop pos).take query.length =
          ((core.take (147 - preL.length)).drop (pos - (pos - contextChars))).take
            query.length := by
        rw [hspan, List.drop_take, List.take_take]
        congr 1
        simp only [show contextChars = 50 from rfl] at hoff ⊢
        omega
      rw [hspan2]
      exact containsSub_slice _ _ _
    · have htklen : (((preL ++ core) ++ sufL).take 147).length = 147 := by
        rw [List.length_take]
        omega
      have hasc : ∀ c ∈ ((preL ++ core) ++ sufL).take 147 ++ ellipsis, c.toNat < 128 := by
        intro c hc
        rcases List.mem_append.mp hc with hc | hc
        · exact hsn_ascii c ((List.take_sublist _ _).subset hc)
        · exact ellipsis_ascii c hc
      rw [byteLen_ascii hasc, List.length_append, htklen]
      unfold maxSnippetLength
      simp [ellipsis]
  · -- No truncation: the snippet is the decorated window itself.
    rw [if_neg htrunc] at hgs
    refine ⟨pos, (preL ++ core) ++ sufL, core, preL, sufL, hpos, hgs, by rw [List.append_assoc],
      hpre_or, hsuf_or, ?_, by omega⟩
    rw [hspan]
    exact containsSub_slice _ _ _

set_option maxRecDepth 10000 in
/-- Counterexample to C7 as stated: a 151-character query matching the whole
content.  The snippet exceeds 150 bytes, is hard-truncated to 147 characters
plus `"..."`, and no longer contains the matched span (the whole content),
however the ellipses are stripped. -/
theorem c7_snippet_containment_cex :
    containsSub (List.replicate 151 'a') (rustLower (List.replicate 151 'a')) = true ∧
    generate_snippet (List.replicate 151 'a') (rustLower (List.replicate 151 'a'))
      (List.replicate 151 'a') = some (List.replicate 147 'a' ++ ellipsis) ∧
    containsSub (((List.replicate 151 'a').drop 0).take 151)
      (List.replicate 147 'a' ++ ellipsis) = false := by
  refine ⟨by decide, by decide, by decide⟩

/-- Witness for C7 (amended) at content `"abc"`, query `"abc"`. -/
theorem c7_snippet_containment_amended_witness :
    ∃ (pos : Nat) (snip mid pre suf : List Char),
      byteFind (rustLower ("abc".toList)) ("abc".toList) = some pos ∧
      generate_snippet ("abc".toList) (rustLower ("abc".toList)) ("abc".toList) =
        some snip ∧
      snip = pre ++ mid ++ suf ∧
      (pre = [] ∨ pre = ellipsis) ∧
      (suf = [] ∨ suf = ellipsis) ∧
      containsSub ((("abc".toList).drop pos).take ("abc".toList).length) mid = true ∧
      byteLen snip ≤ maxSnippetLength :=
  c7_snippet_containment_amended ("abc".toList) ("abc".toList) (by decide) (by decide)
    (by decide)

end Dex
